import Mathlib

/-!
Verification of a scalar reverse-mode automatic differentiation engine
(a `Value` class building a DAG of computation nodes, with a DFS
post-order topological sort and a backward accumulation pass).

The program is embedded with an arena model: a computation graph is a
list of nodes (`Env`), node identity is the index into that list, and
mutation of a node's `grad` field is functional update of the list.
Python scalars (`float`) are modelled as real numbers; `math.exp` is
`Real.exp` and `**` on scalars is `Real.rpow`.  Each node's
`_backward` closure is represented by a tagged rule (`BRule`) that
stores exactly the numeric state the corresponding closure captures
(the operand indices, the exponent for `__pow__`, and the cached
forward output for `exp`/`tanh`); `runRule` executes one such closure,
performing the same sequence of `grad +=` updates as the source.
-/

namespace Micrograd

/-- The backward rule attached to a node: a tagged representation of the
`_backward` closure installed by each operation in the source.  `leaf` is
the default no-op rule of `Value.__init__`; `add i j` / `mul i j` are the
closures of `__add__` / `__mul__` over operand indices `i`, `j`;
`pow i p` captures the scalar exponent `p`; `exp i t` and `tanh i t`
capture the cached forward output `t`. -/
inductive BRule where
  | leaf : BRule
  | add (i j : Nat) : BRule
  | mul (i j : Nat) : BRule
  | pow (i : Nat) (p : ℝ) : BRule
  | exp (i : Nat) (t : ℝ) : BRule
  | tanh (i : Nat) (t : ℝ) : BRule

/-- The node indices a backward rule writes into (the operands whose
`grad` the closure increments). -/
def ruleOps : BRule → List Nat
  | .leaf => []
  | .add i j => [i, j]
  | .mul i j => [i, j]
  | .pow i _ => [i]
  | .exp i _ => [i]
  | .tanh i _ => [i]

/-- A computation-graph node: the `Value` object of the source.
`data` is the forward value, `grad` the gradient accumulator
(initialized to 0), `children` the dependency set (`set(children)`,
unique indices), `rule` the `_backward` closure, `label` the display
name. -/
structure Node where
  data : ℝ
  grad : ℝ
  children : List Nat
  rule : BRule
  label : String

/-- The arena of nodes; a node's identity is its index. -/
abbrev Env := List Node

/-- The node used for out-of-range reads (never hit on well-formed input). -/
def defaultNode : Node := ⟨0, 0, [], .leaf, ""⟩

/-- Read the node stored at index `v`. -/
def nodeAt : Env → Nat → Node
  | [], _ => defaultNode
  | nd :: _, 0 => nd
  | _ :: rest, v + 1 => nodeAt rest v

/-- `v.data` -/
def dataAt (env : Env) (v : Nat) : ℝ := (nodeAt env v).data

/-- `v.grad` -/
def gradAt (env : Env) (v : Nat) : ℝ := (nodeAt env v).grad

/-- `v.children` -/
def childrenOf (env : Env) (v : Nat) : List Nat := (nodeAt env v).children

/-- `v.label` -/
def labelAt (env : Env) (v : Nat) : String := (nodeAt env v).label

/-- `v._backward` (as stored rule) -/
def ruleAt (env : Env) (v : Nat) : BRule := (nodeAt env v).rule

/-- In-place update of one node's `grad` field (`v.grad = f(v.grad)`). -/
def updateGrad : Env → Nat → (ℝ → ℝ) → Env
  | [], _, _ => []
  | nd :: rest, 0, f => { nd with grad := f nd.grad } :: rest
  | nd :: rest, v + 1, f => nd :: updateGrad rest v f

/-- In-place update of one node's `label` field (`v.label = s`). -/
def setLabel : Env → Nat → String → Env
  | [], _, _ => []
  | nd :: rest, 0, s => { nd with label := s } :: rest
  | nd :: rest, v + 1, s => nd :: setLabel rest v s

/-- Execute node `w`'s `_backward` closure: the same sequence of
`grad +=` statements as the source, each reading the current state at
the moment it executes. -/
noncomputable def runRule (env : Env) (w : Nat) : Env :=
  match ruleAt env w with
  | .leaf => env
  | .add i j =>
      let env1 := updateGrad env i (· + 1 * gradAt env w)
      updateGrad env1 j (· + 1 * gradAt env1 w)
  | .mul i j =>
      let env1 := updateGrad env i (· + dataAt env j * gradAt env w)
      updateGrad env1 j (· + dataAt env1 i * gradAt env1 w)
  | .pow i p =>
      updateGrad env i (· + p * Real.rpow (dataAt env i) (p - 1) * gradAt env w)
  | .exp i t =>
      updateGrad env i (· + t * gradAt env w)
  | .tanh i t =>
      updateGrad env i (· + (1 - t ^ 2) * gradAt env w)

/-- The local derivative of node `w` with respect to node `v`: the total
coefficient that `w`'s backward rule adds into `v.grad` per unit of
`w.grad` (occurrences summed, so `add i i` contributes 2). -/
noncomputable def localDeriv (env : Env) (w v : Nat) : ℝ :=
  match ruleAt env w with
  | .leaf => 0
  | .add i j => (if i = v then 1 else 0) + (if j = v then 1 else 0)
  | .mul i j =>
      (if i = v then dataAt env j else 0) + (if j = v then dataAt env i else 0)
  | .pow i p => if i = v then p * Real.rpow (dataAt env i) (p - 1) else 0
  | .exp i t => if i = v then t else 0
  | .tanh i t => if i = v then 1 - t ^ 2 else 0

/-- Well-formedness of an arena, guaranteed by the construction API:
every node's dependencies are earlier nodes (operands exist before the
result, which makes the graph acyclic), the dependency set has no
duplicates (it is a set), and a node's backward rule writes only into
its own dependencies. -/
def WF (env : Env) : Prop :=
  ∀ w, w < env.length →
    (childrenOf env w).Nodup ∧
    (∀ c ∈ childrenOf env w, c < w) ∧
    (∀ i ∈ ruleOps (ruleAt env w), i ∈ childrenOf env w)

instance wfDecidable (env : Env) : Decidable (WF env) := by
  unfold WF
  infer_instance

/-- One step of `Value.graph`'s recursive `_build_topo`: depth-first
post-order traversal with a visited set (`st.1`) and output list
(`st.2`).  `fuel` bounds the recursion depth; since dependency indices
strictly decrease, `env.length` fuel always suffices on well-formed
input. -/
def buildTopo (env : Env) : Nat → Nat → List Nat × List Nat → List Nat × List Nat
  | 0, _, st => st
  | fuel + 1, v, st =>
      if v ∈ st.1 then st
      else
        let st1 := (childrenOf env v).foldl (fun s c => buildTopo env fuel c s) (v :: st.1, st.2)
        (st1.1, st1.2 ++ [v])

/-- `Value.graph`: the topological ordering of the nodes reachable from
`r` (dependencies first, `r` last). -/
def graphL (env : Env) (r : Nat) : List Nat :=
  (buildTopo env env.length r ([], [])).2

/-- `Value.backward`: set the root's grad to 1 (plain assignment), then
invoke each node's backward rule in reverse topological order. -/
noncomputable def backward (env : Env) (r : Nat) : Env :=
  let env1 := updateGrad env r (fun _ => 1)
  List.foldl runRule env1 (graphL env1 r).reverse

/-- A dynamically-typed operand of a binary operator: either an existing
graph node or a raw Python scalar. -/
inductive Operand where
  | node (i : Nat) : Operand
  | const (c : ℝ) : Operand

/-- `Value(data, children, label)`: append a fresh node, grad 0, no-op
backward rule; `children` is stored as a set (duplicates removed). -/
def mkValue (env : Env) (d : ℝ) (children : List Nat) (label : String) : Env × Nat :=
  (env ++ [⟨d, 0, children.dedup, .leaf, label⟩], env.length)

/-- `other if isinstance(other, Value) else Value(other)`: promote a raw
scalar operand to a fresh dependency-free leaf node. -/
def promote (env : Env) (o : Operand) : Env × Nat :=
  match o with
  | .node i => (env, i)
  | .const c => mkValue env c [] ""

/-- `Value.__add__` -/
def addV (env : Env) (i : Nat) (o : Operand) : Env × Nat :=
  let p := promote env o
  let env1 := p.1
  let j := p.2
  (env1 ++ [⟨dataAt env1 i + dataAt env1 j, 0, List.dedup [i, j], .add i j, ""⟩], env1.length)

/-- `Value.__mul__` (also the target of `__rmul__`) -/
def mulV (env : Env) (i : Nat) (o : Operand) : Env × Nat :=
  let p := promote env o
  let env1 := p.1
  let j := p.2
  (env1 ++ [⟨dataAt env1 i * dataAt env1 j, 0, List.dedup [i, j], .mul i j, ""⟩], env1.length)

/-- `Value.__pow__`: the `assert isinstance(power, (float, int))` fires
(result `none`, arena unchanged) exactly when the exponent is a node;
with a scalar exponent a fresh node is appended.  The forward value is
the total `Real.rpow`: this is the real-valued idealization used by the
derived operators; `powVChecked` below additionally models the float
power's own domain error that this idealization collapses. -/
noncomputable def powV (env : Env) (i : Nat) (o : Operand) : Env × Option Nat :=
  match o with
  | .node _ => (env, none)
  | .const p =>
      (env ++ [⟨Real.rpow (dataAt env i) p, 0, [i].dedup, .pow i p, ""⟩], some env.length)

/-- `Value.__pow__` with the scalar power's own failure mode also
modelled.  After the `isinstance` assert passes, the source still
computes `self.data ** power` on raw floats, and Python raises
`ZeroDivisionError` when the base is 0.0 and the exponent is negative;
both failures happen immediately at the call, before any node is
constructed (float range failures have no real-number counterpart and
are not representable here).  On every non-failing input this agrees
with the idealized `powV`. -/
noncomputable def powVChecked (env : Env) (i : Nat) (o : Operand) : Env × Option Nat :=
  match o with
  | .node _ => (env, none)
  | .const p =>
      if dataAt env i = 0 ∧ p < 0 then (env, none)
      else (env ++ [⟨Real.rpow (dataAt env i) p, 0, [i].dedup, .pow i p, ""⟩], some env.length)

/-- `Value.__neg__`: `self * -1` -/
def negV (env : Env) (i : Nat) : Env × Nat :=
  mulV env i (.const (-1))

/-- `Value.__sub__`: `self + -other` (for a scalar operand the negation
happens on the raw float before promotion). -/
def subV (env : Env) (i : Nat) (o : Operand) : Env × Nat :=
  match o with
  | .node j =>
      let n := negV env j
      addV n.1 i (.node n.2)
  | .const c => addV env i (.const (-c))

/-- `Value.__truediv__`: `self * (other ** -1)` (for a scalar operand the
reciprocal is computed on the raw float before promotion). -/
noncomputable def divV (env : Env) (i : Nat) (o : Operand) : Env × Option Nat :=
  match o with
  | .node j =>
      match powV env j (.const (-1)) with
      | (env1, some k) =>
          let m := mulV env1 i (.node k)
          (m.1, some m.2)
      | (env1, none) => (env1, none)
  | .const c =>
      let m := mulV env i (.const (Real.rpow c (-1)))
      (m.1, some m.2)

/-- `Value.exp`: forward `e^x`, the closure captures the forward output `t`. -/
noncomputable def expV (env : Env) (i : Nat) : Env × Nat :=
  let t := Real.exp (dataAt env i)
  (env ++ [⟨t, 0, [i].dedup, .exp i t, ""⟩], env.length)

/-- `Value.tanh`: forward `(e^(2x) - 1) / (e^(2x) + 1)`, the closure
captures the forward output `t`. -/
noncomputable def tanhV (env : Env) (i : Nat) : Env × Nat :=
  let x := dataAt env i
  let t := (Real.exp (2 * x) - 1) / (Real.exp (2 * x) + 1)
  (env ++ [⟨t, 0, [i].dedup, .tanh i t, ""⟩], env.length)

/-- The product of per-edge local derivatives along a dependency path
(a path is listed from the deep node up to the root, each element a
dependency of the next). -/
noncomputable def pathWeight (env : Env) : List Nat → ℝ
  | [] => 1
  | [_] => 1
  | c :: w :: rest => localDeriv env w c * pathWeight env (w :: rest)

/-- All directed dependency paths from node `v` up to the root `r`:
either the trivial path (when `v = r`), or a first step to any consumer
`w` (a node having `v` among its dependencies) followed by a path from
`w` to `r`.  Since dependency indices strictly decrease, consumers lie
in `(v, r]` and the recursion terminates. -/
def pathsFrom (env : Env) (r v : Nat) : List (List Nat) :=
  if v = r then [[v]]
  else
    (((List.range' (v + 1) (r - v)).filter
        (fun w => decide (v ∈ childrenOf env w))).attach).flatMap
      (fun w => (pathsFrom env r w.1).map (fun p => v :: p))
termination_by r - v
decreasing_by
  rcases List.mem_filter.1 w.2 with ⟨hw, -⟩
  rcases List.mem_range'.1 hw with ⟨k, hk, hkeq⟩
  omega

/-- The multivariate chain-rule value: the sum over all directed
dependency paths from `v` to the root `r` of the product of per-edge
local derivatives along the path. -/
noncomputable def pathSum (env : Env) (r v : Nat) : ℝ :=
  ((pathsFrom env r v).map (pathWeight env)).sum

/-- Reachability along dependency edges: `Reach env r v` holds when `v`
lies in the transitive dependency subgraph of `r` (including `r`). -/
inductive Reach (env : Env) : Nat → Nat → Prop
  | refl (v : Nat) : Reach env v v
  | step {v c w : Nat} : c ∈ childrenOf env v → Reach env c w → Reach env v w

section BasicLemmas

theorem nodeAt_ge : ∀ (env : Env) (v : Nat), env.length ≤ v → nodeAt env v = defaultNode
  | [], _, _ => rfl
  | _ :: _, 0, h => by simp at h
  | _ :: rest, v + 1, h => nodeAt_ge rest v (by simpa using h)

theorem childrenOf_ge (env : Env) (v : Nat) (h : env.length ≤ v) : childrenOf env v = [] := by
  simp [childrenOf, nodeAt_ge env v h, defaultNode]

theorem ruleAt_ge (env : Env) (v : Nat) (h : env.length ≤ v) : ruleAt env v = .leaf := by
  simp [ruleAt, nodeAt_ge env v h, defaultNode]

theorem gradAt_ge (env : Env) (v : Nat) (h : env.length ≤ v) : gradAt env v = 0 := by
  simp [gradAt, nodeAt_ge env v h, defaultNode]

theorem nodeAt_append_lt : ∀ (env l : Env) (v : Nat), v < env.length →
    nodeAt (env ++ l) v = nodeAt env v
  | [], _, _, h => by simp at h
  | _ :: _, _, 0, _ => rfl
  | _ :: rest, l, v + 1, h => nodeAt_append_lt rest l v (by simpa using h)

theorem nodeAt_append_self : ∀ (env : Env) (nd : Node), nodeAt (env ++ [nd]) env.length = nd
  | [], _ => rfl
  | _ :: rest, nd => nodeAt_append_self rest nd

theorem updateGrad_length : ∀ (env : Env) (v : Nat) (f : ℝ → ℝ),
    (updateGrad env v f).length = env.length
  | [], _, _ => rfl
  | _ :: _, 0, _ => rfl
  | _ :: rest, v + 1, f => by simp [updateGrad, updateGrad_length rest v f]

theorem nodeAt_updateGrad_ne : ∀ (env : Env) (v x : Nat) (f : ℝ → ℝ), v ≠ x →
    nodeAt (updateGrad env v f) x = nodeAt env x
  | [], _, _, _, _ => rfl
  | _ :: _, 0, 0, _, h => absurd rfl h
  | _ :: _, 0, _ + 1, _, _ => rfl
  | _ :: _, _ + 1, 0, _, _ => rfl
  | _ :: rest, v + 1, x + 1, f, h =>
      nodeAt_updateGrad_ne rest v x f (fun hc => h (by simp [hc]))

theorem nodeAt_updateGrad_self : ∀ (env : Env) (v : Nat) (f : ℝ → ℝ), v < env.length →
    nodeAt (updateGrad env v f) v = { nodeAt env v with grad := f (nodeAt env v).grad }
  | [], _, _, h => by simp at h
  | _ :: _, 0, _, _ => rfl
  | _ :: rest, v + 1, f, h => nodeAt_updateGrad_self rest v f (by simpa using h)

theorem updateGrad_ge : ∀ (env : Env) (v : Nat) (f : ℝ → ℝ), env.length ≤ v →
    updateGrad env v f = env
  | [], _, _, _ => rfl
  | _ :: _, 0, _, h => by simp at h
  | _ :: rest, v + 1, f, h => by simp [updateGrad, updateGrad_ge rest v f (by simpa using h)]

theorem gradAt_updateGrad_self (env : Env) (v : Nat) (f : ℝ → ℝ) (h : v < env.length) :
    gradAt (updateGrad env v f) v = f (gradAt env v) := by
  simp [gradAt, nodeAt_updateGrad_self env v f h]

theorem gradAt_updateGrad_ne (env : Env) (v x : Nat) (f : ℝ → ℝ) (h : v ≠ x) :
    gradAt (updateGrad env v f) x = gradAt env x := by
  simp [gradAt, nodeAt_updateGrad_ne env v x f h]

theorem dataAt_updateGrad (env : Env) (v x : Nat) (f : ℝ → ℝ) :
    dataAt (updateGrad env v f) x = dataAt env x := by
  by_cases h : v = x
  · subst h
    by_cases hv : v < env.length
    · simp [dataAt, nodeAt_updateGrad_self env v f hv]
    · rw [updateGrad_ge env v f (by omega)]
  · simp [dataAt, nodeAt_updateGrad_ne env v x f h]

theorem childrenOf_updateGrad (env : Env) (v x : Nat) (f : ℝ → ℝ) :
    childrenOf (updateGrad env v f) x = childrenOf env x := by
  by_cases h : v = x
  · subst h
    by_cases hv : v < env.length
    · simp [childrenOf, nodeAt_updateGrad_self env v f hv]
    · rw [updateGrad_ge env v f (by omega)]
  · simp [childrenOf, nodeAt_updateGrad_ne env v x f h]

theorem ruleAt_updateGrad (env : Env) (v x : Nat) (f : ℝ → ℝ) :
    ruleAt (updateGrad env v f) x = ruleAt env x := by
  by_cases h : v = x
  · subst h
    by_cases hv : v < env.length
    · simp [ruleAt, nodeAt_updateGrad_self env v f hv]
    · rw [updateGrad_ge env v f (by omega)]
  · simp [ruleAt, nodeAt_updateGrad_ne env v x f h]

theorem labelAt_updateGrad (env : Env) (v x : Nat) (f : ℝ → ℝ) :
    labelAt (updateGrad env v f) x = labelAt env x := by
  by_cases h : v = x
  · subst h
    by_cases hv : v < env.length
    · simp [labelAt, nodeAt_updateGrad_self env v f hv]
    · rw [updateGrad_ge env v f (by omega)]
  · simp [labelAt, nodeAt_updateGrad_ne env v x f h]

/-- The parts of the arena that the backward pass may not change:
length, forward data, dependency sets, rules and labels. -/
def SameShape (e1 e2 : Env) : Prop :=
  e1.length = e2.length ∧
  (∀ v, dataAt e1 v = dataAt e2 v) ∧
  (∀ v, childrenOf e1 v = childrenOf e2 v) ∧
  (∀ v, ruleAt e1 v = ruleAt e2 v) ∧
  (∀ v, labelAt e1 v = labelAt e2 v)

theorem sameShape_refl (e : Env) : SameShape e e :=
  ⟨rfl, fun _ => rfl, fun _ => rfl, fun _ => rfl, fun _ => rfl⟩

theorem sameShape_trans {e1 e2 e3 : Env} (h1 : SameShape e1 e2) (h2 : SameShape e2 e3) :
    SameShape e1 e3 :=
  ⟨h1.1.trans h2.1,
   fun v => (h1.2.1 v).trans (h2.2.1 v),
   fun v => (h1.2.2.1 v).trans (h2.2.2.1 v),
   fun v => (h1.2.2.2.1 v).trans (h2.2.2.2.1 v),
   fun v => (h1.2.2.2.2 v).trans (h2.2.2.2.2 v)⟩

theorem sameShape_updateGrad (env : Env) (v : Nat) (f : ℝ → ℝ) :
    SameShape env (updateGrad env v f) :=
  ⟨(updateGrad_length env v f).symm,
   fun x => (dataAt_updateGrad env v x f).symm,
   fun x => (childrenOf_updateGrad env v x f).symm,
   fun x => (ruleAt_updateGrad env v x f).symm,
   fun x => (labelAt_updateGrad env v x f).symm⟩

theorem sameShape_runRule (env : Env) (w : Nat) : SameShape env (runRule env w) := by
  unfold runRule
  rcases h : ruleAt env w with _ | ⟨i, j⟩ | ⟨i, j⟩ | ⟨i, p⟩ | ⟨i, t⟩ | ⟨i, t⟩ <;>
    simp only [h] <;>
    first
      | exact sameShape_refl env
      | exact sameShape_trans (sameShape_updateGrad _ _ _) (sameShape_updateGrad _ _ _)
      | exact sameShape_updateGrad _ _ _

theorem sameShape_foldl (l : List Nat) : ∀ (env : Env), SameShape env (List.foldl runRule env l) := by
  induction l with
  | nil => exact fun env => sameShape_refl env
  | cons w l ih =>
      intro env
      exact sameShape_trans (sameShape_runRule env w) (ih (runRule env w))

theorem wf_of_sameShape {e1 e2 : Env} (h : SameShape e1 e2) (hwf : WF e1) : WF e2 := by
  intro w hw
  rw [← h.1] at hw
  rcases hwf w hw with ⟨h1, h2, h3⟩
  refine ⟨?_, ?_, ?_⟩
  · rw [← h.2.2.1 w]; exact h1
  · rw [← h.2.2.1 w]; exact h2
  · rw [← h.2.2.1 w, ← h.2.2.2.1 w]; exact h3

theorem localDeriv_congr {e1 e2 : Env} (h : SameShape e1 e2) (w v : Nat) :
    localDeriv e1 w v = localDeriv e2 w v := by
  unfold localDeriv
  rw [← h.2.2.2.1 w]
  rcases ruleAt e1 w with _ | ⟨i, j⟩ | ⟨i, j⟩ | ⟨i, p⟩ | ⟨i, t⟩ | ⟨i, t⟩ <;>
    simp only [h.2.1]

theorem reach_congr {e1 e2 : Env} (h : ∀ v, childrenOf e1 v = childrenOf e2 v) {r x : Nat}
    (hr : Reach e1 r x) : Reach e2 r x := by
  induction hr with
  | refl v => exact Reach.refl v
  | step hc _ ih => exact Reach.step (by rw [← h _]; exact hc) ih

theorem reach_le {env : Env} (hwf : WF env) {r x : Nat} (h : Reach env r x) : x ≤ r := by
  induction h with
  | refl v => exact le_refl v
  | @step v c w hc _ ih =>
      by_cases hv : v < env.length
      · exact le_trans ih (le_of_lt ((hwf v hv).2.1 c hc))
      · rw [childrenOf_ge env v (by omega)] at hc
        simp at hc

theorem reach_child {env : Env} {r w c : Nat} (h : Reach env r w)
    (hc : c ∈ childrenOf env w) : Reach env r c := by
  induction h with
  | refl v => exact Reach.step hc (Reach.refl c)
  | step hc' _ ih => exact Reach.step hc' (ih hc)

theorem opsLt {env : Env} (hwf : WF env) {w : Nat} (hw : w < env.length) {i : Nat}
    (hi : i ∈ ruleOps (ruleAt env w)) : i < w :=
  (hwf w hw).2.1 i ((hwf w hw).2.2 i hi)

end BasicLemmas

section RuleLemmas

theorem localDeriv_self {env : Env} (hwf : WF env) (w : Nat) : localDeriv env w w = 0 := by
  by_cases hw : w < env.length
  · unfold localDeriv
    rcases h : ruleAt env w with _ | ⟨i, j⟩ | ⟨i, j⟩ | ⟨i, p⟩ | ⟨i, t⟩ | ⟨i, t⟩
    · rfl
    all_goals
      simp only []
      have hi : i < w := opsLt hwf hw (by simp [ruleOps, h])
    · have hj : j < w := opsLt hwf hw (by simp [ruleOps, h])
      simp [Nat.ne_of_lt hi, Nat.ne_of_lt hj]
    · have hj : j < w := opsLt hwf hw (by simp [ruleOps, h])
      simp [Nat.ne_of_lt hi, Nat.ne_of_lt hj]
    all_goals simp [Nat.ne_of_lt hi]
  · simp [localDeriv, ruleAt_ge env w (by omega)]

theorem localDeriv_eq_zero_of_not_mem {env : Env} (hwf : WF env) {w x : Nat}
    (h : x ∉ childrenOf env w) : localDeriv env w x = 0 := by
  by_cases hw : w < env.length
  · have hops : ∀ i ∈ ruleOps (ruleAt env w), i ≠ x := by
      intro i hi hix
      exact h (hix ▸ (hwf w hw).2.2 i hi)
    unfold localDeriv
    rcases hr : ruleAt env w with _ | ⟨i, j⟩ | ⟨i, j⟩ | ⟨i, p⟩ | ⟨i, t⟩ | ⟨i, t⟩
    · rfl
    all_goals
      simp only [hr, ruleOps] at hops ⊢
      have hi : i ≠ x := hops i (by simp [ruleOps])
    · have hj : j ≠ x := hops j (by simp [ruleOps])
      simp [hi, hj]
    · have hj : j ≠ x := hops j (by simp [ruleOps])
      simp [hi, hj]
    all_goals simp [hi]
  · simp [localDeriv, ruleAt_ge env w (by omega)]

theorem localDeriv_ne_zero_mem {env : Env} (hwf : WF env) {w x : Nat}
    (h : localDeriv env w x ≠ 0) : x ∈ childrenOf env w := by
  by_contra hc
  exact h (localDeriv_eq_zero_of_not_mem hwf hc)

theorem localDeriv_ne_zero_lt {env : Env} (hwf : WF env) {w x : Nat}
    (h : localDeriv env w x ≠ 0) : x < w := by
  have hmem := localDeriv_ne_zero_mem hwf h
  by_cases hw : w < env.length
  · exact (hwf w hw).2.1 x hmem
  · rw [childrenOf_ge env w (by omega)] at hmem
    simp at hmem

/-- Executing one backward rule adds exactly the local-derivative
contribution into every node (`+=` accumulation, all other grads
untouched). -/
theorem runRule_grad {env : Env} (hwf : WF env) (w x : Nat) :
    gradAt (runRule env w) x = gradAt env x + localDeriv env w x * gradAt env w := by
  by_cases hw : w < env.length
  · unfold runRule localDeriv
    rcases h : ruleAt env w with _ | ⟨i, j⟩ | ⟨i, j⟩ | ⟨i, p⟩ | ⟨i, t⟩ | ⟨i, t⟩
    · simp
    · -- add
      have hi : i < w := opsLt hwf hw (by simp [ruleOps, h])
      have hj : j < w := opsLt hwf hw (by simp [ruleOps, h])
      simp only []
      rw [gradAt_updateGrad_ne env i w _ (by omega)]
      by_cases hjx : j = x
      · subst hjx
        rw [gradAt_updateGrad_self _ j _ (by rw [updateGrad_length]; omega)]
        by_cases hix : i = j
        · subst hix
          rw [gradAt_updateGrad_self _ i _ (by omega)]
          simp only [if_pos rfl, if_true]
          ring
        · rw [gradAt_updateGrad_ne _ i j _ hix]
          simp only [if_neg hix, if_pos rfl, if_true]
          ring
      · rw [gradAt_updateGrad_ne _ j x _ hjx]
        by_cases hix : i = x
        · subst hix
          rw [gradAt_updateGrad_self _ i _ (by omega)]
          simp only [if_pos rfl, if_true, if_neg hjx]
          ring
        · rw [gradAt_updateGrad_ne _ i x _ hix]
          simp only [if_neg hix, if_neg hjx]
          ring
    · -- mul
      have hi : i < w := opsLt hwf hw (by simp [ruleOps, h])
      have hj : j < w := opsLt hwf hw (by simp [ruleOps, h])
      simp only []
      rw [gradAt_updateGrad_ne env i w _ (by omega), dataAt_updateGrad env i i _]
      by_cases hjx : j = x
      · subst hjx
        rw [gradAt_updateGrad_self _ j _ (by rw [updateGrad_length]; omega)]
        by_cases hix : i = j
        · subst hix
          rw [gradAt_updateGrad_self _ i _ (by omega)]
          simp only [if_pos rfl, if_true]
          ring
        · rw [gradAt_updateGrad_ne _ i j _ hix]
          simp only [if_neg hix, if_pos rfl, if_true]
          ring
      · rw [gradAt_updateGrad_ne _ j x _ hjx]
        by_cases hix : i = x
        · subst hix
          rw [gradAt_updateGrad_self _ i _ (by omega)]
          simp only [if_pos rfl, if_true, if_neg hjx]
          ring
        · rw [gradAt_updateGrad_ne _ i x _ hix]
          simp only [if_neg hix, if_neg hjx]
          ring
    all_goals
      have hi : i < w := opsLt hwf hw (by simp [ruleOps, h])
      simp only []
      by_cases hix : i = x
      · subst hix
        rw [gradAt_updateGrad_self _ i _ (by omega)]
        simp only [if_pos rfl, if_true]
        try ring
      · rw [gradAt_updateGrad_ne _ i x _ hix]
        simp only [if_neg hix]
        try ring
  · have hr := ruleAt_ge env w (by omega)
    simp [runRule, localDeriv, hr]

theorem foldl_grad_frozen {x : Nat} : ∀ (l : List Nat) (env : Env), WF env →
    (∀ w ∈ l, localDeriv env w x = 0) →
    gradAt (List.foldl runRule env l) x = gradAt env x := by
  intro l
  induction l with
  | nil => intro env _ _; rfl
  | cons w l ih =>
      intro env hwf h
      have hshape := sameShape_runRule env w
      rw [List.foldl_cons,
        ih (runRule env w) (wf_of_sameShape hshape hwf)
          (fun w' hw' => by
            rw [← localDeriv_congr hshape w' x]
            exact h w' (List.mem_cons_of_mem w hw')),
        runRule_grad hwf w x, h w (List.mem_cons_self w l)]
      ring

/-- The fixed-point characterization of the backward accumulation fold:
running the rules of a list `L` in which no element is a dependency of a
later element leaves every node's gradient equal to its initial value
plus the sum of local-derivative contributions from the final gradients
of the nodes in `L`. -/
theorem foldl_runRule_fix : ∀ (L : List Nat) (E : Env), WF E →
    L.Pairwise (fun a b => a ∉ childrenOf E b) →
    ∀ x, gradAt (List.foldl runRule E L) x =
      gradAt E x +
        (L.map (fun w => localDeriv E w x * gradAt (List.foldl runRule E L) w)).sum := by
  intro L
  induction L with
  | nil => intro E _ _ x; simp
  | cons w0 L ih =>
      intro E hwf hp x
      rcases List.pairwise_cons.1 hp with ⟨hp1, hp2⟩
      have hshape := sameShape_runRule E w0
      have hwf1 : WF (runRule E w0) := wf_of_sameShape hshape hwf
      have hp2' : L.Pairwise (fun a b => a ∉ childrenOf (runRule E w0) b) :=
        hp2.imp (fun {a b} hab => by rw [← hshape.2.2.1 b]; exact hab)
      have hfrozen : gradAt (List.foldl runRule E (w0 :: L)) w0 = gradAt E w0 := by
        rw [List.foldl_cons,
          foldl_grad_frozen L (runRule E w0) hwf1
            (fun w' hw' => by
              rw [← localDeriv_congr hshape w' w0]
              exact localDeriv_eq_zero_of_not_mem hwf (hp1 w' hw')),
          runRule_grad hwf w0 w0, localDeriv_self hwf w0]
        ring
      have hmain := ih (runRule E w0) hwf1 hp2' x
      rw [List.foldl_cons] at *
      rw [hmain, runRule_grad hwf w0 x]
      rw [List.map_cons, List.sum_cons, hfrozen]
      have hsum : (L.map (fun w =>
            localDeriv (runRule E w0) w x * gradAt (List.foldl runRule (runRule E w0) L) w)) =
          (L.map (fun w => localDeriv E w x * gradAt (List.foldl runRule (runRule E w0) L) w)) :=
        List.map_congr_left (fun w _ => by rw [← localDeriv_congr hshape w x])
      rw [hsum]
      ring

end RuleLemmas

section TopoSpec

/-- `t` is a valid dependencies-first ordering: wherever a node occurs in
`t`, every one of its dependencies occurs strictly earlier. -/
def TopoOK (env : Env) (t : List Nat) : Prop :=
  ∀ l1 w l2, t = l1 ++ w :: l2 → ∀ c ∈ childrenOf env w, c ∈ l1

theorem topoOK_nil (env : Env) : TopoOK env [] := by
  intro l1 w l2 h
  exact absurd h (by simp)

theorem topoOK_closed {env : Env} {t : List Nat} (hok : TopoOK env t) {v x : Nat}
    (hv : v ∈ t) (hr : Reach env v x) : x ∈ t := by
  induction hr with
  | refl v => exact hv
  | @step v c w hc _ ih =>
      rcases List.append_of_mem hv with ⟨s, u, rfl⟩
      exact ih (List.mem_append_left _ (hok s v u rfl c hc))

theorem append_singleton_split {l1 l2 t : List Nat} {w v : Nat}
    (h : l1 ++ w :: l2 = t ++ [v]) :
    (l1 = t ∧ w = v ∧ l2 = []) ∨ ∃ l2', l2 = l2' ++ [v] ∧ t = l1 ++ w :: l2' := by
  rcases List.eq_nil_or_concat' l2 with rfl | ⟨L, b, rfl⟩
  · left
    have h' : l1 ++ [w] = t ++ [v] := h
    rcases List.append_inj' h' rfl with ⟨h1, h2⟩
    exact ⟨h1, by simpa using h2, rfl⟩
  · right
    have h' : (l1 ++ w :: L) ++ [b] = t ++ [v] := by simpa using h
    rcases List.append_inj' h' rfl with ⟨h1, h2⟩
    have hb : b = v := by simpa using h2
    exact ⟨L, by rw [hb], h1.symm⟩

theorem topoOK_append_singleton {env : Env} {t : List Nat} {v : Nat} (hok : TopoOK env t)
    (hch : ∀ c ∈ childrenOf env v, c ∈ t) : TopoOK env (t ++ [v]) := by
  intro l1 w l2 h c hc
  rcases append_singleton_split h.symm with ⟨rfl, rfl, rfl⟩ | ⟨l2', rfl, ht⟩
  · exact hch c hc
  · exact hok l1 w l2' ht c hc

/-- Invariant carried by the DFS state: the output list has no
duplicates, is contained in the visited set, and is dependencies-first. -/
structure DfsInv (env : Env) (st : List Nat × List Nat) : Prop where
  nodup : st.2.Nodup
  sub : ∀ x ∈ st.2, x ∈ st.1
  ok : TopoOK env st.2

/-- Postcondition of one `_build_topo(v)` call. -/
structure DfsPost (env : Env) (v : Nat) (st st' : List Nat × List Nat) : Prop where
  inv : DfsInv env st'
  grow : ∃ d, st'.2 = st.2 ++ d
  visMono : ∀ x ∈ st.1, x ∈ st'.1
  visNew : ∀ x ∈ st'.1, x ∈ st.1 ∨ x ∈ st'.2
  topoNew : ∀ x ∈ st'.2, x ∈ st.2 ∨ x ∉ st.1
  topoReach : ∀ x ∈ st'.2, x ∈ st.2 ∨ Reach env v x
  memSelf : v ∈ st'.2
  complete : ∀ x, Reach env v x → x ∈ st'.1
  lastSelf : v ∉ st.1 → ∃ d, st'.2 = st.2 ++ d ++ [v]

/-- Postcondition of the loop over a dependency list. -/
structure DfsFoldPost (env : Env) (cs : List Nat) (st st' : List Nat × List Nat) : Prop where
  inv : DfsInv env st'
  grow : ∃ d, st'.2 = st.2 ++ d
  visMono : ∀ x ∈ st.1, x ∈ st'.1
  visNew : ∀ x ∈ st'.1, x ∈ st.1 ∨ x ∈ st'.2
  topoNew : ∀ x ∈ st'.2, x ∈ st.2 ∨ x ∉ st.1
  topoReach : ∀ x ∈ st'.2, x ∈ st.2 ∨ ∃ c ∈ cs, Reach env c x
  complete : ∀ c ∈ cs, ∀ x, Reach env c x → x ∈ st'.1

theorem dfsPost_stackEq {env : Env} {v : Nat} {st st' : List Nat × List Nat}
    (p : DfsPost env v st st') (x : Nat) :
    (x ∈ st'.1 ∧ x ∉ st'.2) ↔ (x ∈ st.1 ∧ x ∉ st.2) := by
  constructor
  · rintro ⟨hv, ht⟩
    refine ⟨(p.visNew x hv).resolve_right ht, fun hx => ?_⟩
    rcases p.grow with ⟨d, hd⟩
    exact ht (hd ▸ List.mem_append_left d hx)
  · rintro ⟨hv, ht⟩
    refine ⟨p.visMono x hv, fun hx => ?_⟩
    rcases p.topoNew x hx with h | h
    · exact ht h
    · exact h hv

theorem dfsFoldPost_stackEq {env : Env} {cs : List Nat} {st st' : List Nat × List Nat}
    (p : DfsFoldPost env cs st st') (x : Nat) :
    (x ∈ st'.1 ∧ x ∉ st'.2) ↔ (x ∈ st.1 ∧ x ∉ st.2) := by
  constructor
  · rintro ⟨hv, ht⟩
    refine ⟨(p.visNew x hv).resolve_right ht, fun hx => ?_⟩
    rcases p.grow with ⟨d, hd⟩
    exact ht (hd ▸ List.mem_append_left d hx)
  · rintro ⟨hv, ht⟩
    refine ⟨p.visMono x hv, fun hx => ?_⟩
    rcases p.topoNew x hx with h | h
    · exact ht h
    · exact h hv

theorem buildTopoFold_post (env : Env) (fuel : Nat)
    (IH : ∀ v st, v < fuel → DfsInv env st → (∀ x ∈ st.1, x ∉ st.2 → v < x) →
      DfsPost env v st (buildTopo env fuel v st)) :
    ∀ (cs : List Nat) (st : List Nat × List Nat), (∀ c ∈ cs, c < fuel) → DfsInv env st →
      (∀ x ∈ st.1, x ∉ st.2 → ∀ c ∈ cs, c < x) →
      DfsFoldPost env cs st (cs.foldl (fun s c => buildTopo env fuel c s) st) := by
  intro cs
  induction cs with
  | nil =>
      intro st _ hinv _
      exact ⟨hinv, ⟨[], by simp⟩, fun x h => h, fun x h => Or.inl h, fun x h => Or.inl h,
        fun x h => Or.inl h, by simp⟩
  | cons c cs ih =>
      intro st hlt hinv hstack
      have p1 : DfsPost env c st (buildTopo env fuel c st) :=
        IH c st (hlt c (List.mem_cons_self c cs)) hinv
          (fun x hx hnx => hstack x hx hnx c (List.mem_cons_self c cs))
      have hstack1 : ∀ x ∈ (buildTopo env fuel c st).1, x ∉ (buildTopo env fuel c st).2 →
          ∀ c' ∈ cs, c' < x := by
        intro x hx hnx c' hc'
        rcases (dfsPost_stackEq p1 x).1 ⟨hx, hnx⟩ with ⟨hx0, hnx0⟩
        exact hstack x hx0 hnx0 c' (List.mem_cons_of_mem c hc')
      have p2 : DfsFoldPost env cs (buildTopo env fuel c st)
          (cs.foldl (fun s c => buildTopo env fuel c s) (buildTopo env fuel c st)) :=
        ih (buildTopo env fuel c st) (fun c' h => hlt c' (List.mem_cons_of_mem c h))
          p1.inv hstack1
      rw [List.foldl_cons]
      refine ⟨p2.inv, ?_, ?_, ?_, ?_, ?_, ?_⟩
      · rcases p1.grow with ⟨d1, h1⟩
        rcases p2.grow with ⟨d2, h2⟩
        exact ⟨d1 ++ d2, by rw [h2, h1, List.append_assoc]⟩
      · exact fun x h => p2.visMono x (p1.visMono x h)
      · intro x h
        rcases p2.visNew x h with h' | h'
        · rcases p1.visNew x h' with h'' | h''
          · exact Or.inl h''
          · rcases p2.grow with ⟨d2, h2⟩
            exact Or.inr (h2 ▸ List.mem_append_left d2 h'')
        · exact Or.inr h'
      · intro x h
        rcases p2.topoNew x h with h' | h'
        · exact p1.topoNew x h'
        · exact Or.inr (fun hx => h' (p1.visMono x hx))
      · intro x h
        rcases p2.topoReach x h with h' | h'
        · rcases p1.topoReach x h' with h'' | h''
          · exact Or.inl h''
          · exact Or.inr ⟨c, List.mem_cons_self c cs, h''⟩
        · rcases h' with ⟨c', hc', hr⟩
          exact Or.inr ⟨c', List.mem_cons_of_mem c hc', hr⟩
      · intro c' hc' x hr
        rcases List.mem_cons.1 hc' with rfl | hc''
        · exact p2.visMono x (p1.complete x hr)
        · exact p2.complete c' hc'' x hr

/-- Correctness of one `_build_topo` call, by induction on the fuel.
On well-formed arenas every dependency index is smaller than its
consumer, so `v < fuel` suffices for the call at `v` to follow the
source's unbounded recursion. -/
theorem buildTopo_post {env : Env} (hwf : WF env) :
    ∀ (fuel v : Nat) (st : List Nat × List Nat), v < fuel → DfsInv env st →
      (∀ x ∈ st.1, x ∉ st.2 → v < x) →
      DfsPost env v st (buildTopo env fuel v st) := by
  intro fuel
  induction fuel with
  | zero => intro v st hv; exact absurd hv (Nat.not_lt_zero v)
  | succ n ihf =>
      intro v st hv hinv hstack
      have hb : buildTopo env (n + 1) v st =
          if v ∈ st.1 then st
          else
            (((childrenOf env v).foldl (fun s c => buildTopo env n c s) (v :: st.1, st.2)).1,
             ((childrenOf env v).foldl (fun s c => buildTopo env n c s) (v :: st.1, st.2)).2
               ++ [v]) := rfl
      by_cases hmem : v ∈ st.1
      · rw [hb, if_pos hmem]
        have hvt : v ∈ st.2 := by
          by_contra hvt
          exact lt_irrefl v (hstack v hmem hvt)
        exact ⟨hinv, ⟨[], by simp⟩, fun x h => h, fun x h => Or.inl h, fun x h => Or.inl h,
          fun x h => Or.inl h, hvt,
          fun x hr => hinv.sub x (topoOK_closed hinv.ok hvt hr),
          fun h => absurd hmem h⟩
      · rw [hb, if_neg hmem]
        have hch : ∀ c ∈ childrenOf env v, c < v := by
          by_cases hvl : v < env.length
          · exact (hwf v hvl).2.1
          · rw [childrenOf_ge env v (by omega)]
            intro c hc
            exact absurd hc (List.not_mem_nil c)
        have hinv1 : DfsInv env (v :: st.1, st.2) :=
          ⟨hinv.nodup, fun x h => List.mem_cons_of_mem v (hinv.sub x h), hinv.ok⟩
        have hstack1 : ∀ x ∈ (v :: st.1, st.2).1, x ∉ (v :: st.1, st.2).2 →
            ∀ c ∈ childrenOf env v, c < x := by
          intro x hx hnx c hc
          rcases List.mem_cons.1 hx with rfl | hx'
          · exact hch c hc
          · exact lt_trans (hch c hc) (hstack x hx' hnx)
        have p : DfsFoldPost env (childrenOf env v) (v :: st.1, st.2)
            ((childrenOf env v).foldl (fun s c => buildTopo env n c s) (v :: st.1, st.2)) :=
          buildTopoFold_post env n (fun v' st' h1 h2 h3 => ihf v' st' h1 h2 h3)
            (childrenOf env v) (v :: st.1, st.2)
            (fun c hc => by have := hch c hc; omega) hinv1 hstack1
        set st2 := (childrenOf env v).foldl (fun s c => buildTopo env n c s) (v :: st.1, st.2)
          with hst2
        have hvnotin2 : v ∉ st2.2 := by
          intro hvin
          rcases p.topoNew v hvin with h | h
          · exact hmem (hinv.sub v h)
          · exact h (List.mem_cons_self v st.1)
        have hchin : ∀ c ∈ childrenOf env v, c ∈ st2.2 := by
          intro c hc
          have hcin : c ∈ st2.1 := p.complete c hc c (Reach.refl c)
          by_contra hcnot
          rcases (dfsFoldPost_stackEq p c).1 ⟨hcin, hcnot⟩ with ⟨hcv, hcs⟩
          rcases List.mem_cons.1 hcv with rfl | hcv'
          · exact lt_irrefl c (hch c hc)
          · exact lt_asymm (hch c hc) (hstack c hcv' hcs)
        refine ⟨⟨?_, ?_, ?_⟩, ?_, ?_, ?_, ?_, ?_, ?_, ?_, ?_⟩
        · rw [List.nodup_append]
          exact ⟨p.inv.nodup, List.nodup_singleton v,
            fun x hx hx' => by
              rw [List.mem_singleton] at hx'
              subst hx'
              exact hvnotin2 hx⟩
        · intro x hx
          rcases List.mem_append.1 hx with hx' | hx'
          · exact p.inv.sub x hx'
          · have : x = v := by simpa using hx'
            exact this ▸ p.visMono v (List.mem_cons_self v st.1)
        · exact topoOK_append_singleton p.inv.ok hchin
        · rcases p.grow with ⟨d, hd⟩
          exact ⟨d ++ [v], by rw [hd]; simp⟩
        · exact fun x h => p.visMono x (List.mem_cons_of_mem v h)
        · intro x hx
          rcases p.visNew x hx with h | h
          · rcases List.mem_cons.1 h with rfl | h'
            · exact Or.inr (List.mem_append_right st2.2 (by simp))
            · exact Or.inl h'
          · exact Or.inr (List.mem_append_left [v] h)
        · intro x hx
          rcases List.mem_append.1 hx with hx' | hx'
          · rcases p.topoNew x hx' with h | h
            · exact Or.inl h
            · exact Or.inr (fun hxs => h (List.mem_cons_of_mem v hxs))
          · have : x = v := by simpa using hx'
            exact Or.inr (this ▸ hmem)
        · intro x hx
          rcases List.mem_append.1 hx with hx' | hx'
          · rcases p.topoReach x hx' with h | h
            · exact Or.inl h
            · rcases h with ⟨c, hc, hr⟩
              exact Or.inr (Reach.step hc hr)
          · have : x = v := by simpa using hx'
            exact Or.inr (by rw [this]; exact Reach.refl v)
        · exact List.mem_append_right st2.2 (by simp)
        · intro x hr
          cases hr with
          | refl => exact p.visMono v (List.mem_cons_self v st.1)
          | step hc hr' =>
              rename_i c
              exact p.complete c hc x hr'
        · intro _
          rcases p.grow with ⟨d, hd⟩
          exact ⟨d, by rw [hd]⟩

end TopoSpec

section GraphLemmas

theorem buildTopo_congr {e1 e2 : Env} (h : ∀ v, childrenOf e1 v = childrenOf e2 v) :
    ∀ (fuel v : Nat) (st : List Nat × List Nat),
      buildTopo e1 fuel v st = buildTopo e2 fuel v st := by
  intro fuel
  induction fuel with
  | zero => intro v st; rfl
  | succ n ih =>
      intro v st
      show (if v ∈ st.1 then st else _) = (if v ∈ st.1 then st else _)
      by_cases hv : v ∈ st.1
      · rw [if_pos hv, if_pos hv]
      · rw [if_neg hv, if_neg hv]
        have hfun : (fun (s : List Nat × List Nat) (c : Nat) => buildTopo e1 n c s) =
            (fun s c => buildTopo e2 n c s) :=
          funext fun s => funext fun c => ih c s
        rw [h v, hfun]

theorem graphL_congr {e1 e2 : Env} (h : ∀ v, childrenOf e1 v = childrenOf e2 v)
    (hlen : e1.length = e2.length) (r : Nat) : graphL e1 r = graphL e2 r := by
  unfold graphL
  rw [hlen, buildTopo_congr h]

/-- `backward` expressed over the original arena's topological order
(setting the root's grad does not change the dependency structure). -/
theorem backward_eq_foldl (env : Env) (r : Nat) :
    backward env r =
      List.foldl runRule (updateGrad env r (fun _ => 1)) ((graphL env r).reverse) := by
  show List.foldl runRule (updateGrad env r (fun _ => 1))
      ((graphL (updateGrad env r (fun _ => 1)) r).reverse) = _
  rw [graphL_congr (fun v => childrenOf_updateGrad env r v (fun _ => 1))
    (updateGrad_length env r (fun _ => 1)) r]

theorem sameShape_backward (env : Env) (r : Nat) : SameShape env (backward env r) := by
  rw [backward_eq_foldl]
  exact sameShape_trans (sameShape_updateGrad env r (fun _ => 1)) (sameShape_foldl _ _)

theorem dfsPost_graphL {env : Env} (hwf : WF env) {r : Nat} (hr : r < env.length) :
    DfsPost env r ([], []) (buildTopo env env.length r ([], [])) :=
  buildTopo_post hwf env.length r ([], []) hr
    ⟨List.nodup_nil, fun x h => absurd h (List.not_mem_nil x), topoOK_nil env⟩
    (fun x h => absurd h (List.not_mem_nil x))

theorem graphL_nodup {env : Env} (hwf : WF env) {r : Nat} (hr : r < env.length) :
    (graphL env r).Nodup :=
  (dfsPost_graphL hwf hr).inv.nodup

theorem graphL_topoOK {env : Env} (hwf : WF env) {r : Nat} (hr : r < env.length) :
    TopoOK env (graphL env r) :=
  (dfsPost_graphL hwf hr).inv.ok

theorem graphL_mem_iff {env : Env} (hwf : WF env) {r : Nat} (hr : r < env.length) (v : Nat) :
    v ∈ graphL env r ↔ Reach env r v := by
  have p := dfsPost_graphL hwf hr
  constructor
  · intro h
    rcases p.topoReach v h with h' | h'
    · exact absurd h' (List.not_mem_nil v)
    · exact h'
  · intro h
    rcases p.visNew v (p.complete v h) with h' | h'
    · exact absurd h' (List.not_mem_nil v)
    · exact h'

theorem graphL_concat {env : Env} (hwf : WF env) {r : Nat} (hr : r < env.length) :
    ∃ d, graphL env r = d ++ [r] := by
  rcases (dfsPost_graphL hwf hr).lastSelf (List.not_mem_nil r) with ⟨d, hd⟩
  exact ⟨d, by simpa using hd⟩

theorem graphL_mem_le {env : Env} (hwf : WF env) {r : Nat} (hr : r < env.length) {w : Nat}
    (h : w ∈ graphL env r) : w ≤ r :=
  reach_le hwf ((graphL_mem_iff hwf hr w).1 h)

theorem topoOK_pairwise_aux {env : Env} :
    ∀ (t acc : List Nat), (acc ++ t).Nodup →
      (∀ l1 w l2, t = l1 ++ w :: l2 → ∀ c ∈ childrenOf env w, c ∈ acc ++ l1) →
      t.Pairwise (fun a b => b ∉ childrenOf env a) := by
  intro t
  induction t with
  | nil => intro acc _ _; exact List.Pairwise.nil
  | cons w rest ih =>
      intro acc hnd hok
      constructor
      · intro b hb hbc
        have hsub : ∀ c ∈ childrenOf env w, c ∈ acc := by
          intro c hc
          simpa using hok [] w rest rfl c hc
        have hbacc : b ∈ acc := hsub b hbc
        rcases List.nodup_append.1 hnd with ⟨-, -, hdisj⟩
        exact hdisj hbacc (List.mem_cons_of_mem w hb)
      · refine ih (acc ++ [w]) (by simpa using hnd) ?_
        intro l1 u l2 h c hc
        have := hok (w :: l1) u l2 (by rw [h]; rfl) c hc
        simpa [List.append_assoc] using this

/-- In a dependencies-first list without duplicates, a later element is
never a dependency of an earlier one. -/
theorem topoOK_pairwise {env : Env} {t : List Nat} (hnd : t.Nodup) (hok : TopoOK env t) :
    t.Pairwise (fun a b => b ∉ childrenOf env a) := by
  refine topoOK_pairwise_aux t [] (by simpa using hnd) ?_
  intro l1 u l2 h c hc
  simpa using hok l1 u l2 h c hc

theorem graphL_reverse_pairwise {env : Env} (hwf : WF env) {r : Nat} (hr : r < env.length) :
    (graphL env r).reverse.Pairwise (fun a b => a ∉ childrenOf env b) :=
  List.pairwise_reverse.2 (topoOK_pairwise (graphL_nodup hwf hr) (graphL_topoOK hwf hr))

theorem sum_map_zero {l : List Nat} {f : Nat → ℝ} (h : ∀ w ∈ l, f w = 0) :
    (l.map f).sum = 0 := by
  induction l with
  | nil => rfl
  | cons a l ih =>
      rw [List.map_cons, List.sum_cons, h a (List.mem_cons_self a l),
        ih (fun w hw => h w (List.mem_cons_of_mem a hw)), add_zero]

theorem sum_map_single {l : List Nat} (hnd : l.Nodup) {b : Nat} (hb : b ∈ l) (f : Nat → ℝ)
    (h : ∀ w ∈ l, w ≠ b → f w = 0) : (l.map f).sum = f b := by
  induction l with
  | nil => exact absurd hb (List.not_mem_nil b)
  | cons a l ih =>
      rcases List.nodup_cons.1 hnd with ⟨ha, hnd'⟩
      rw [List.map_cons, List.sum_cons]
      rcases List.mem_cons.1 hb with rfl | hb'
      · rw [sum_map_zero (fun w hw => h w (List.mem_cons_of_mem b hw)
          (fun hc => ha (hc ▸ hw))), add_zero]
      · rw [h a (List.mem_cons_self a l) (fun hc => ha (hc ▸ hb')),
          ih hnd' hb' (fun w hw hwb => h w (List.mem_cons_of_mem a hw) hwb), zero_add]

/-- Fixed-point characterization of `backward`: afterwards, every node's
gradient equals its seed value (1 at the root, the prior gradient
elsewhere) plus the local-derivative contributions flowing from the
final gradients of the processed nodes. -/
theorem backward_fix {env : Env} (hwf : WF env) {r : Nat} (hr : r < env.length) (x : Nat) :
    gradAt (backward env r) x =
      (if x = r then 1 else gradAt env x) +
        (((graphL env r).reverse).map
          (fun w => localDeriv env w x * gradAt (backward env r) w)).sum := by
  have hsh0 : SameShape env (updateGrad env r (fun _ => 1)) :=
    sameShape_updateGrad env r (fun _ => 1)
  have hwf0 : WF (updateGrad env r (fun _ => 1)) := wf_of_sameShape hsh0 hwf
  have hpw : (graphL env r).reverse.Pairwise
      (fun a b => a ∉ childrenOf (updateGrad env r (fun _ => 1)) b) :=
    (graphL_reverse_pairwise hwf hr).imp (fun {a b} hab => by rw [← hsh0.2.2.1 b]; exact hab)
  have hfix := foldl_runRule_fix ((graphL env r).reverse) (updateGrad env r (fun _ => 1))
    hwf0 hpw x
  rw [backward_eq_foldl]
  rw [hfix]
  have hseed : gradAt (updateGrad env r (fun _ => 1)) x = if x = r then 1 else gradAt env x := by
    by_cases hx : x = r
    · subst hx
      rw [if_pos rfl, gradAt_updateGrad_self env x _ hr]
    · rw [if_neg hx, gradAt_updateGrad_ne env r x _ (fun hc => hx hc.symm)]
  rw [hseed]
  congr 1
  exact congrArg List.sum (List.map_congr_left
    (fun w _ => by rw [← localDeriv_congr hsh0 w x]))

/-- After `backward`, the root's gradient is exactly 1: the seed is a
plain assignment and no executed rule writes into the root. -/
theorem backward_root_one {env : Env} (hwf : WF env) {r : Nat} (hr : r < env.length) :
    gradAt (backward env r) r = 1 := by
  rw [backward_fix hwf hr r, if_pos rfl]
  rw [sum_map_zero ?_, add_zero]
  intro w hw
  have hwle : w ≤ r := graphL_mem_le hwf hr (List.mem_reverse.1 hw)
  by_cases hd : localDeriv env w r = 0
  · rw [hd, zero_mul]
  · exact absurd (localDeriv_ne_zero_lt hwf hd) (by omega)

end GraphLemmas

section PathSumLemmas

theorem pathsFrom_eq (env : Env) (r v : Nat) :
    pathsFrom env r v =
      if v = r then [[v]]
      else
        (((List.range' (v + 1) (r - v)).filter
            (fun w => decide (v ∈ childrenOf env w))).attach).flatMap
          (fun w => (pathsFrom env r w.1).map (fun p => v :: p)) := by
  rw [pathsFrom]

theorem pathsFrom_self (env : Env) (r : Nat) : pathsFrom env r r = [[r]] := by
  rw [pathsFrom_eq, if_pos rfl]

theorem pathSum_self (env : Env) (r : Nat) : pathSum env r r = 1 := by
  unfold pathSum
  rw [pathsFrom_self]
  simp [pathWeight]

theorem pathsFrom_gt (env : Env) {r v : Nat} (h : r < v) : pathsFrom env r v = [] := by
  rw [pathsFrom_eq, if_neg (by omega)]
  have : r - v = 0 := by omega
  simp [this]

theorem pathSum_gt (env : Env) {r v : Nat} (h : r < v) : pathSum env r v = 0 := by
  unfold pathSum
  rw [pathsFrom_gt env h]
  rfl

theorem pathsFrom_cons (env : Env) (r v : Nat) :
    ∀ p ∈ pathsFrom env r v, ∃ q, p = v :: q := by
  intro p hp
  rw [pathsFrom_eq] at hp
  by_cases h : v = r
  · rw [if_pos h] at hp
    exact ⟨[], by simpa using hp⟩
  · rw [if_neg h] at hp
    rcases List.mem_flatMap.1 hp with ⟨w, -, hw2⟩
    rcases List.mem_map.1 hw2 with ⟨q, -, rfl⟩
    exact ⟨q, rfl⟩

theorem sum_flatMap_sum (l : List (List ℝ)) : l.flatten.sum = (l.map List.sum).sum := by
  induction l with
  | nil => rfl
  | cons a l ih => simp [List.sum_append, ih]

theorem sum_map_flatMap {α β : Type} (l : List α) (f : α → List β) (g : β → ℝ) :
    ((l.flatMap f).map g).sum = (l.map (fun a => ((f a).map g).sum)).sum := by
  induction l with
  | nil => rfl
  | cons a l ih => simp [List.sum_append, ih]

theorem sum_map_attach {α : Type} (l : List α) (g : α → ℝ) :
    ((l.attach).map (fun w => g w.1)).sum = (l.map g).sum := by
  rw [List.attach_map_val l g]

/-- The first-step decomposition of the path sum: group the paths from
`v` by the consumer taken first. -/
theorem pathSum_rec {env : Env} {r v : Nat} (h : v ≠ r) :
    pathSum env r v =
      (((List.range' (v + 1) (r - v)).filter
          (fun w => decide (v ∈ childrenOf env w))).map
        (fun w => localDeriv env w v * pathSum env r w)).sum := by
  unfold pathSum
  rw [pathsFrom_eq, if_neg h]
  rw [sum_map_flatMap]
  have hinner : ∀ w ∈ ((List.range' (v + 1) (r - v)).filter
      (fun w => decide (v ∈ childrenOf env w))).attach,
      (((pathsFrom env r w.1).map (fun p => v :: p)).map (pathWeight env)).sum =
        localDeriv env w.1 v * ((pathsFrom env r w.1).map (pathWeight env)).sum := by
    intro w _
    rw [List.map_map]
    have hcong : (pathsFrom env r w.1).map (pathWeight env ∘ fun p => v :: p) =
        (pathsFrom env r w.1).map (fun p => localDeriv env w.1 v * pathWeight env p) := by
      refine List.map_congr_left ?_
      intro p hp
      rcases pathsFrom_cons env r w.1 p hp with ⟨q, rfl⟩
      simp [pathWeight]
    rw [hcong, List.sum_map_mul_left]
  rw [List.map_congr_left hinner]
  rw [List.attach_map_val
    ((List.range' (v + 1) (r - v)).filter (fun w => decide (v ∈ childrenOf env w)))
    (fun w => localDeriv env w v * ((pathsFrom env r w).map (pathWeight env)).sum)]

theorem pathSum_not_reach_aux {env : Env} (r : Nat) :
    ∀ (n v : Nat), r - v ≤ n → ¬Reach env r v → pathSum env r v = 0 := by
  intro n
  induction n with
  | zero =>
      intro v hv hnr
      rcases Nat.lt_or_ge r v with h | h
      · exact pathSum_gt env h
      · have : v = r := by omega
        exact absurd (this ▸ Reach.refl v) hnr
  | succ n ih =>
      intro v hv hnr
      rcases Nat.lt_or_ge r v with h | h
      · exact pathSum_gt env h
      · have hne : v ≠ r := fun hc => hnr (hc ▸ Reach.refl v)
        rw [pathSum_rec hne]
        refine sum_map_zero ?_
        intro w hw
        rcases List.mem_filter.1 hw with ⟨hw1, hw2⟩
        rcases List.mem_range'.1 hw1 with ⟨k, hk, hkeq⟩
        have hvw : v ∈ childrenOf env w := of_decide_eq_true hw2
        have hnw : ¬Reach env r w := fun hrw => hnr (reach_child hrw hvw)
        rw [ih w (by omega) hnw, mul_zero]

theorem pathSum_of_not_reach {env : Env} {r v : Nat}
    (h : ¬Reach env r v) : pathSum env r v = 0 :=
  pathSum_not_reach_aux r (r - v) v le_rfl h

theorem range'_nodup (s n : Nat) : (List.range' s n).Nodup := by
  rw [List.range'_eq_map_range]
  exact (List.nodup_range n).map (fun a b h => by omega)

theorem sum_list_eq_sum_range {l : List Nat} (hnd : l.Nodup) {r : Nat} (f : Nat → ℝ)
    (hsub : ∀ w ∈ l, w ≤ r) (hzero : ∀ w, w ≤ r → w ∉ l → f w = 0) :
    (l.map f).sum = ∑ w ∈ Finset.range (r + 1), f w := by
  rw [← List.sum_toFinset f hnd]
  refine Finset.sum_subset ?_ ?_
  · intro w hw
    rw [List.mem_toFinset] at hw
    rw [Finset.mem_range]
    have := hsub w hw
    omega
  · intro w hw hwn
    rw [List.mem_toFinset] at hwn
    rw [Finset.mem_range] at hw
    exact hzero w (by omega) hwn

/-- The path sum satisfies its own fixed-point equation over the
topological order: filtering through `graphL` loses nothing because
paths only pass through reachable consumers. -/
theorem pathSum_eq_sum_graphL {env : Env} (hwf : WF env) {r : Nat} (hr : r < env.length)
    (x : Nat) :
    pathSum env r x =
      (if x = r then 1 else 0) +
        (((graphL env r).reverse).map
          (fun w => localDeriv env w x * pathSum env r w)).sum := by
  have hsumrev : (((graphL env r).reverse).map
      (fun w => localDeriv env w x * pathSum env r w)).sum =
      ((graphL env r).map (fun w => localDeriv env w x * pathSum env r w)).sum := by
    rw [List.map_reverse, List.sum_reverse]
  rw [hsumrev]
  by_cases hx : x = r
  · subst hx
    rw [if_pos rfl, pathSum_self]
    rw [sum_map_zero ?_, add_zero]
    intro w hw
    have hwle : w ≤ x := graphL_mem_le hwf hr hw
    by_cases hd : localDeriv env w x = 0
    · rw [hd, zero_mul]
    · exact absurd (localDeriv_ne_zero_lt hwf hd) (by omega)
  · rw [if_neg hx, zero_add]
    rcases Nat.lt_or_ge r x with hgt | hle
    · rw [pathSum_gt env hgt]
      symm
      refine sum_map_zero ?_
      intro w hw
      have hwle : w ≤ r := graphL_mem_le hwf hr hw
      by_cases hd : localDeriv env w x = 0
      · rw [hd, zero_mul]
      · have := localDeriv_ne_zero_lt hwf hd
        omega
    · rw [pathSum_rec hx]
      have hside1 : (((List.range' (x + 1) (r - x)).filter
          (fun w => decide (x ∈ childrenOf env w))).map
            (fun w => localDeriv env w x * pathSum env r w)).sum =
          ∑ w ∈ Finset.range (r + 1), localDeriv env w x * pathSum env r w := by
        refine sum_list_eq_sum_range ((range'_nodup _ _).filter _) _ ?_ ?_
        · intro w hw
          rcases List.mem_filter.1 hw with ⟨hw1, -⟩
          rcases List.mem_range'.1 hw1 with ⟨k, hk, hkeq⟩
          omega
        · intro w hwle hwn
          by_cases hd : localDeriv env w x = 0
          · rw [hd, zero_mul]
          · exfalso
            have hxw : x < w := localDeriv_ne_zero_lt hwf hd
            have hmem : x ∈ childrenOf env w := localDeriv_ne_zero_mem hwf hd
            refine hwn (List.mem_filter.2 ⟨?_, by simpa using hmem⟩)
            rw [List.mem_range']
            exact ⟨w - (x + 1), by omega, by omega⟩
      have hside2 : ((graphL env r).map
          (fun w => localDeriv env w x * pathSum env r w)).sum =
          ∑ w ∈ Finset.range (r + 1), localDeriv env w x * pathSum env r w := by
        refine sum_list_eq_sum_range (graphL_nodup hwf hr) _
          (fun w hw => graphL_mem_le hwf hr hw) ?_
        intro w hwle hwn
        by_cases hps : pathSum env r w = 0
        · rw [hps, mul_zero]
        · exfalso
          have hrw : Reach env r w := by
            by_contra hc
            exact hps (pathSum_of_not_reach hc)
          exact hwn ((graphL_mem_iff hwf hr w).2 hrw)
      rw [hside1, hside2]

/-- The gradients computed by `backward` on a zero-initialized graph are
exactly the chain-rule path sums. -/
theorem backward_pathSum_aux {env : Env} (hwf : WF env) {r : Nat} (hr : r < env.length)
    (hz : ∀ v, gradAt env v = 0) :
    ∀ (n x : Nat), r - x ≤ n → gradAt (backward env r) x = pathSum env r x := by
  intro n
  induction n with
  | zero =>
      intro x hx
      rcases Nat.lt_or_ge r x with h | h
      · rw [pathSum_gt env h, backward_fix hwf hr x, if_neg (by omega), hz x]
        rw [sum_map_zero ?_, add_zero]
        intro w hw
        have hwle : w ≤ r := graphL_mem_le hwf hr (List.mem_reverse.1 hw)
        by_cases hd : localDeriv env w x = 0
        · rw [hd, zero_mul]
        · have := localDeriv_ne_zero_lt hwf hd
          omega
      · have hxr : x = r := by omega
        subst hxr
        rw [backward_root_one hwf hr, pathSum_self]
  | succ n ih =>
      intro x hx
      rcases Nat.lt_or_ge r x with h | h
      · rw [pathSum_gt env h, backward_fix hwf hr x, if_neg (by omega), hz x]
        rw [sum_map_zero ?_, add_zero]
        intro w hw
        have hwle : w ≤ r := graphL_mem_le hwf hr (List.mem_reverse.1 hw)
        by_cases hd : localDeriv env w x = 0
        · rw [hd, zero_mul]
        · have := localDeriv_ne_zero_lt hwf hd
          omega
      · by_cases hxr : x = r
        · subst hxr
          rw [backward_root_one hwf hr, pathSum_self]
        · rw [backward_fix hwf hr x, if_neg hxr, hz x]
          rw [pathSum_eq_sum_graphL hwf hr x, if_neg hxr]
          congr 1
          refine congrArg List.sum (List.map_congr_left ?_)
          intro w hw
          by_cases hd : localDeriv env w x = 0
          · rw [hd, zero_mul, zero_mul]
          · have hxw : x < w := localDeriv_ne_zero_lt hwf hd
            have hwle : w ≤ r := graphL_mem_le hwf hr (List.mem_reverse.1 hw)
            rw [ih w (by omega)]

theorem backward_pathSum {env : Env} (hwf : WF env) {r : Nat} (hr : r < env.length)
    (hz : ∀ v, gradAt env v = 0) (x : Nat) :
    gradAt (backward env r) x = pathSum env r x :=
  backward_pathSum_aux hwf hr hz (r - x) x le_rfl

end PathSumLemmas

section ConstructionLemmas

theorem dedup_pair_self (a : Nat) : List.dedup [a, a] = [a] := by
  simp [List.dedup_cons_of_mem, List.mem_dedup]

theorem dedup_pair_ne {a b : Nat} (h : a ≠ b) : List.dedup [a, b] = [a, b] := by
  rw [List.dedup_cons_of_not_mem (by simp [List.mem_dedup, h])]
  simp

theorem childrenOf_append_lt (env l : Env) (v : Nat) (h : v < env.length) :
    childrenOf (env ++ l) v = childrenOf env v := by
  simp [childrenOf, nodeAt_append_lt env l v h]

theorem childrenOf_append_self (env : Env) (nd : Node) :
    childrenOf (env ++ [nd]) env.length = nd.children := by
  simp [childrenOf, nodeAt_append_self env nd]

theorem ruleAt_append_lt (env l : Env) (v : Nat) (h : v < env.length) :
    ruleAt (env ++ l) v = ruleAt env v := by
  simp [ruleAt, nodeAt_append_lt env l v h]

theorem ruleAt_append_self (env : Env) (nd : Node) :
    ruleAt (env ++ [nd]) env.length = nd.rule := by
  simp [ruleAt, nodeAt_append_self env nd]

theorem gradAt_append_lt (env l : Env) (v : Nat) (h : v < env.length) :
    gradAt (env ++ l) v = gradAt env v := by
  simp [gradAt, nodeAt_append_lt env l v h]

theorem gradAt_append_self (env : Env) (nd : Node) :
    gradAt (env ++ [nd]) env.length = nd.grad := by
  simp [gradAt, nodeAt_append_self env nd]

theorem dataAt_append_lt (env l : Env) (v : Nat) (h : v < env.length) :
    dataAt (env ++ l) v = dataAt env v := by
  simp [dataAt, nodeAt_append_lt env l v h]

theorem dataAt_append_self (env : Env) (nd : Node) :
    dataAt (env ++ [nd]) env.length = nd.data := by
  simp [dataAt, nodeAt_append_self env nd]

/-- Appending a fresh node whose dependencies already exist preserves
well-formedness. -/
theorem wf_push {env : Env} (hwf : WF env) {nd : Node} (hch : nd.children.Nodup)
    (hlt : ∀ c ∈ nd.children, c < env.length)
    (hops : ∀ i ∈ ruleOps nd.rule, i ∈ nd.children) : WF (env ++ [nd]) := by
  intro w hw
  rw [List.length_append] at hw
  by_cases hwl : w < env.length
  · rw [childrenOf_append_lt env [nd] w hwl, ruleAt_append_lt env [nd] w hwl]
    exact hwf w hwl
  · have hwe : w = env.length := by simp at hw; omega
    subst hwe
    rw [childrenOf_append_self env nd, ruleAt_append_self env nd]
    exact ⟨hch, hlt, hops⟩

theorem runRule_of_tanh {env : Env} {w i : Nat} {t : ℝ} (h : ruleAt env w = .tanh i t) :
    runRule env w = updateGrad env i (· + (1 - t ^ 2) * gradAt env w) := by
  unfold runRule
  rw [h]

theorem runRule_of_pow {env : Env} {w i : Nat} {p : ℝ} (h : ruleAt env w = .pow i p) :
    runRule env w =
      updateGrad env i (· + p * Real.rpow (dataAt env i) (p - 1) * gradAt env w) := by
  unfold runRule
  rw [h]

theorem graphL_reverse_head {env : Env} (hwf : WF env) {r : Nat} (hr : r < env.length) :
    ((graphL env r).reverse).head? = some r := by
  rcases graphL_concat hwf hr with ⟨d, hd⟩
  rw [hd]
  simp

theorem localDeriv_root_zero {env : Env} (hwf : WF env) {r : Nat} {w : Nat}
    (hw : Reach env r w) : localDeriv env w r = 0 := by
  by_cases hd : localDeriv env w r = 0
  · exact hd
  · have h1 := localDeriv_ne_zero_lt hwf hd
    have h2 := reach_le hwf hw
    omega

/-- Frame property of `backward` on gradients: nodes outside the root's
reachable subgraph keep their gradient. -/
theorem backward_grad_frame {env : Env} (hwf : WF env) {r : Nat} (hr : r < env.length)
    {v : Nat} (hv : ¬Reach env r v) : gradAt (backward env r) v = gradAt env v := by
  have hvr : v ≠ r := fun hc => hv (hc ▸ Reach.refl v)
  rw [backward_fix hwf hr v, if_neg hvr]
  rw [sum_map_zero ?_, add_zero]
  intro w hw
  by_cases hd : localDeriv env w v = 0
  · rw [hd, zero_mul]
  · exfalso
    have hmem : v ∈ childrenOf env w := localDeriv_ne_zero_mem hwf hd
    have hrw : Reach env r w := (graphL_mem_iff hwf hr w).1 (List.mem_reverse.1 hw)
    exact hv (reach_child hrw hmem)

theorem powVChecked_node (env : Env) (i j : Nat) :
    powVChecked env i (.node j) = (env, none) := rfl

theorem powVChecked_const (env : Env) (i : Nat) (p : ℝ) :
    powVChecked env i (.const p) =
      if dataAt env i = 0 ∧ p < 0 then (env, none)
      else (env ++ [⟨Real.rpow (dataAt env i) p, 0, [i].dedup, .pow i p, ""⟩],
        some env.length) := rfl

/-- Wherever the float power does not fail, the checked model and the
idealized `powV` build the same node. -/
theorem powVChecked_eq_powV {env : Env} {i : Nat} {p : ℝ} (h : ¬(dataAt env i = 0 ∧ p < 0)) :
    powVChecked env i (.const p) = powV env i (.const p) := by
  rw [powVChecked_const, if_neg h]
  rfl

end ConstructionLemmas

section MainDriver

/-- `x1 = Value(2.0, label="x1")` -/
noncomputable def mainS1 : Env × Nat := mkValue [] 2.0 [] "x1"

/-- `x2 = Value(0.0, label="x2")` -/
noncomputable def mainS2 : Env × Nat := mkValue mainS1.1 0.0 [] "x2"

/-- `w1 = Value(-3.0, label="w1")` -/
noncomputable def mainS3 : Env × Nat := mkValue mainS2.1 (-3.0) [] "w1"

/-- `w2 = Value(1.0, label="w2")` -/
noncomputable def mainS4 : Env × Nat := mkValue mainS3.1 1.0 [] "w2"

/-- `b = Value(6.88137, label="b")` -/
noncomputable def mainS5 : Env × Nat := mkValue mainS4.1 6.88137 [] "b"

/-- `x1w1 = x1 * w1; x1w1.label = "x1w1"` (node 5) -/
noncomputable def mainS6 : Env := setLabel (mulV mainS5.1 0 (.node 2)).1 5 "x1w1"

/-- `x2w2 = x2 * w2; x2w2.label = "x2w2"` (node 6) -/
noncomputable def mainS7 : Env := setLabel (mulV mainS6 1 (.node 3)).1 6 "x2w2"

/-- `sum_xw = x1w1 + x2w2; sum_xw.label = "sum_xw"` (node 7) -/
noncomputable def mainS8 : Env := setLabel (addV mainS7 5 (.node 6)).1 7 "sum_xw"

/-- `n = sum_xw + b; n.label = "n"` (node 8) -/
noncomputable def mainS9 : Env := setLabel (addV mainS8 7 (.node 4)).1 8 "n"

/-- `2 * n` (via `__rmul__`, i.e. `n * 2`: promoted leaf 9, product node 10) -/
noncomputable def mainS10 : Env := (mulV mainS9 8 (.const 2)).1

/-- `e = (2 * n).exp()` (node 11) -/
noncomputable def mainS11 : Env := (expV mainS10 10).1

/-- `e - 1` (promoted leaf 12 holding -1.0, sum node 13) -/
noncomputable def mainS12 : Env := (subV mainS11 11 (.const 1)).1

/-- `e + 1` (promoted leaf 14, sum node 15) -/
noncomputable def mainS13 : Env := (addV mainS12 11 (.const 1)).1

/-- `o = (e - 1) / (e + 1); o.label = "o"` (reciprocal node 16, product
node 17): the arena built by the driver `main`. -/
noncomputable def mainEnv : Env := setLabel (divV mainS13 13 (.node 15)).1 17 "o"

/-- The alternative, equivalent formulation `o = n.tanh()` (node 9 on
top of the first nine nodes of the driver's arena). -/
noncomputable def tanhEnv : Env := (tanhV mainS9 8).1

end MainDriver

section Numerics

theorem exp_main_lb : 2.4141 < Real.exp (88137/100000) := by
  have hxabs : |(88137/100000 : ℝ)| ≤ 1 := by
    rw [abs_of_nonneg (by norm_num)]
    norm_num
  have hb := @Real.exp_bound (88137/100000) hxabs 8 (by norm_num)
  rw [abs_of_nonneg (by norm_num : (0:ℝ) ≤ 88137/100000)] at hb
  norm_num [Finset.sum_range_succ, Nat.factorial] at hb
  rcases abs_le.1 hb with ⟨hlo, hhi⟩
  nlinarith

theorem exp_main_ub : Real.exp (88137/100000) < 2.4143 := by
  have hxabs : |(88137/100000 : ℝ)| ≤ 1 := by
    rw [abs_of_nonneg (by norm_num)]
    norm_num
  have hb := @Real.exp_bound (88137/100000) hxabs 8 (by norm_num)
  rw [abs_of_nonneg (by norm_num : (0:ℝ) ≤ 88137/100000)] at hb
  norm_num [Finset.sum_range_succ, Nat.factorial] at hb
  rcases abs_le.1 hb with ⟨hlo, hhi⟩
  nlinarith

theorem expE_lb : 5.825 < Real.exp (88137/50000) := by
  have hsq : Real.exp (88137/50000) = (Real.exp (88137/100000))^2 := by
    rw [show (88137/50000 : ℝ) = ((2:ℕ):ℝ) * (88137/100000) by norm_num, Real.exp_nat_mul]
  rw [hsq]
  nlinarith [exp_main_lb, Real.exp_pos (88137/100000 : ℝ)]

theorem expE_ub : Real.exp (88137/50000) < 5.832 := by
  have hsq : Real.exp (88137/50000) = (Real.exp (88137/100000))^2 := by
    rw [show (88137/50000 : ℝ) = ((2:ℕ):ℝ) * (88137/100000) by norm_num, Real.exp_nat_mul]
  rw [hsq]
  nlinarith [exp_main_ub, Real.exp_pos (88137/100000 : ℝ)]

/-- Symbolic evaluation of the driver arena's backward pass, with the
forward output and all leaf gradients pinned to the expected values of
the worked example. -/
theorem main_numbers :
    dataAt (backward mainEnv 17) 8 = 0.88137 ∧
    |dataAt (backward mainEnv 17) 17 - 0.7071| < 0.0005 ∧
    |gradAt (backward mainEnv 17) 0 + 1.5| < 0.005 ∧
    |gradAt (backward mainEnv 17) 2 - 1| < 0.005 ∧
    |gradAt (backward mainEnv 17) 1 - 0.5| < 0.005 ∧
    |gradAt (backward mainEnv 17) 4 - 0.5| < 0.005 := by
  rw [backward_eq_foldl]
  have hL : graphL mainEnv 17 = [0,2,5,1,3,6,7,4,8,9,10,11,12,13,14,15,16,17] := by decide
  rw [hL]
  norm_num [mainEnv, mainS13, mainS12, mainS11, mainS10, mainS9, mainS8, mainS7, mainS6,
    mainS5, mainS4, mainS3, mainS2, mainS1, mkValue, addV, mulV, divV, powV, subV, negV,
    expV, promote, setLabel, updateGrad, runRule, ruleAt, nodeAt, gradAt, dataAt,
    List.foldl, List.dedup]
  have hE1 := expE_lb
  have hE2 := expE_ub
  set E := Real.exp (88137/50000) with hEdef
  have h2 : (E + 1) ^ (-2 : ℝ) = ((E + 1) ^ (2:ℕ))⁻¹ := by
    rw [show (-2 : ℝ) = ((-2 : ℤ) : ℝ) by norm_num, Real.rpow_intCast,
      show (-2 : ℤ) = -((2:ℕ):ℤ) by norm_num, zpow_neg, zpow_natCast]
  rw [h2, Real.rpow_neg_one]
  have ha : (E+1)⁻¹ = (E+1) * ((E+1)^(2:ℕ))⁻¹ := by
    rw [sq]
    field_simp
  rw [ha]
  have hinv2 : ((E+1)^(2:ℕ)) * ((E+1)^(2:ℕ))⁻¹ = 1 := mul_inv_cancel₀ (by positivity)
  have hb2 : (0:ℝ) < ((E+1)^(2:ℕ))⁻¹ := by positivity
  refine ⟨?_, ?_, ?_, ?_⟩ <;> rw [abs_lt] <;> constructor
  · have hq : 0.7076*(E+1)^(2:ℕ) - (E^(2:ℕ) - 1) > 0 := by nlinarith
    nlinarith [mul_pos hb2 hq, hinv2]
  · have hq : (E^(2:ℕ) - 1) - 0.7066*(E+1)^(2:ℕ) > 0 := by nlinarith
    nlinarith [mul_pos hb2 hq, hinv2]
  · have hq : 1.505*(E+1)^(2:ℕ) - 12*E > 0 := by nlinarith
    nlinarith [mul_pos hb2 hq, hinv2]
  · have hq : 12*E - 1.495*(E+1)^(2:ℕ) > 0 := by nlinarith
    nlinarith [mul_pos hb2 hq, hinv2]
  · have hq : 8*E - 0.995*(E+1)^(2:ℕ) > 0 := by nlinarith
    nlinarith [mul_pos hb2 hq, hinv2]
  · have hq : 1.005*(E+1)^(2:ℕ) - 8*E > 0 := by nlinarith
    nlinarith [mul_pos hb2 hq, hinv2]
  · have hq : 4*E - 0.495*(E+1)^(2:ℕ) > 0 := by nlinarith
    nlinarith [mul_pos hb2 hq, hinv2]
  · have hq : 0.505*(E+1)^(2:ℕ) - 4*E > 0 := by nlinarith
    nlinarith [mul_pos hb2 hq, hinv2]

/-- The same worked example computed through `Value.tanh` directly. -/
theorem tanh_numbers :
    dataAt (backward tanhEnv 9) 8 = 0.88137 ∧
    |dataAt (backward tanhEnv 9) 9 - 0.7071| < 0.0005 ∧
    |gradAt (backward tanhEnv 9) 0 + 1.5| < 0.005 ∧
    |gradAt (backward tanhEnv 9) 2 - 1| < 0.005 ∧
    |gradAt (backward tanhEnv 9) 1 - 0.5| < 0.005 ∧
    |gradAt (backward tanhEnv 9) 4 - 0.5| < 0.005 := by
  rw [backward_eq_foldl]
  have hL : graphL tanhEnv 9 = [0,2,5,1,3,6,7,4,8,9] := by decide
  rw [hL]
  norm_num [tanhEnv, tanhV, mainS9, mainS8, mainS7, mainS6,
    mainS5, mainS4, mainS3, mainS2, mainS1, mkValue, addV, mulV,
    promote, setLabel, updateGrad, runRule, ruleAt, nodeAt, gradAt, dataAt,
    List.foldl, List.dedup]
  have hE1 := expE_lb
  have hE2 := expE_ub
  set E := Real.exp (88137/50000) with hEdef
  rw [div_eq_mul_inv]
  have hane : E + 1 ≠ 0 := by nlinarith
  have ha : (E+1) * (E+1)⁻¹ = 1 := mul_inv_cancel₀ hane
  have hapos : (0:ℝ) < (E+1)⁻¹ := by positivity
  have ha2 : ((E+1)^(2:ℕ)) * ((E+1)⁻¹)^(2:ℕ) = 1 := by
    rw [← mul_pow, ha, one_pow]
  have ha2pos : (0:ℝ) < ((E+1)⁻¹)^(2:ℕ) := by positivity
  refine ⟨?_, ?_, ?_, ?_⟩ <;> rw [abs_lt] <;> constructor
  · have hq : (E - 1) - 0.7066*(E+1) > 0 := by nlinarith
    nlinarith [mul_pos hapos hq, ha]
  · have hq : 0.7076*(E+1) - (E - 1) > 0 := by nlinarith
    nlinarith [mul_pos hapos hq, ha]
  · have hq : 1.505*(E+1)^(2:ℕ) - 3*((E+1)^(2:ℕ) - (E-1)^(2:ℕ)) > 0 := by nlinarith
    nlinarith [mul_pos ha2pos hq, ha2]
  · have hq : 3*((E+1)^(2:ℕ) - (E-1)^(2:ℕ)) - 1.495*(E+1)^(2:ℕ) > 0 := by nlinarith
    nlinarith [mul_pos ha2pos hq, ha2]
  · have hq : ((E+1)^(2:ℕ) - (E-1)^(2:ℕ)) - 0.4975*(E+1)^(2:ℕ) > 0 := by nlinarith
    nlinarith [mul_pos ha2pos hq, ha2]
  · have hq : 0.5025*(E+1)^(2:ℕ) - ((E+1)^(2:ℕ) - (E-1)^(2:ℕ)) > 0 := by nlinarith
    nlinarith [mul_pos ha2pos hq, ha2]
  · have hq : ((E+1)^(2:ℕ) - (E-1)^(2:ℕ)) - 0.495*(E+1)^(2:ℕ) > 0 := by nlinarith
    nlinarith [mul_pos ha2pos hq, ha2]
  · have hq : 0.505*(E+1)^(2:ℕ) - ((E+1)^(2:ℕ) - (E-1)^(2:ℕ)) > 0 := by nlinarith
    nlinarith [mul_pos ha2pos hq, ha2]

end Numerics

section WitnessArenas

/-- A small arena used to instantiate the general theorems: two leaves
`a = Value(2)`, `b = Value(3)` and the product `c = a * b`. -/
noncomputable def wEnv : Env :=
  (mulV (mkValue (mkValue [] 2 [] "a").1 3 [] "b").1 0 (.node 1)).1

/-- `wEnv` extended with one extra leaf that is not reachable from the
product node. -/
noncomputable def wEnv2 : Env := (mkValue wEnv 5 [] "d").1

/-- A single-leaf arena. -/
noncomputable def wc4Env : Env := (mkValue [] 2 [] "a").1

/-- A single-leaf arena whose gradient already holds a stale value. -/
def wc9Env : Env := [⟨2, 5, [], .leaf, "a"⟩]

/-- A single leaf holding 0.0: the base of the failing power call
`Value(0.0) ** -1`. -/
noncomputable def zeroEnv : Env := (mkValue [] 0 [] "z").1

end WitnessArenas

section Claims

/-- C1: on any well-formed arena whose nodes all have gradient 0, after
`backward` from a root completes, every node reachable from the root has
gradient equal to the sum, over all directed dependency paths from that
node to the root, of the product of per-edge local derivatives along the
path (the multivariate chain rule under shared subexpressions). -/
theorem c1_chain_rule (env : Env) (r : Nat) (hwf : WF env) (hr : r < env.length)
    (hz : ∀ v, gradAt env v = 0) (x : Nat) (hx : Reach env r x) :
    gradAt (backward env r) x = pathSum env r x :=
  backward_pathSum hwf hr hz x

theorem c1_witness :
    WF wEnv ∧ 2 < wEnv.length ∧ (∀ v, gradAt wEnv v = 0) ∧ Reach wEnv 2 0 ∧
    gradAt (backward wEnv 2) 0 = pathSum wEnv 2 0 := by
  have hz : ∀ v, gradAt wEnv v = 0 := by
    intro v
    match v with
    | 0 => rfl
    | 1 => rfl
    | 2 => rfl
    | (n + 3) =>
        refine gradAt_ge wEnv (n + 3) ?_
        have h3 : wEnv.length = 3 := by decide
        omega
  have hre : Reach wEnv 2 0 := Reach.step (by decide : (0:Nat) ∈ childrenOf wEnv 2) (Reach.refl 0)
  exact ⟨by decide, by decide, hz, hre, c1_chain_rule wEnv 2 (by decide) (by decide) hz 0 hre⟩

/-- C2: on any well-formed arena (hence for every enumeration order of
the unordered dependency sets), the topological ordering returned by
`graph` contains each node reachable from the root exactly once
(deduplicated by node identity), and places every node strictly after
all of its dependencies. -/
theorem c2_topo_order (env : Env) (r : Nat) (hwf : WF env) (hr : r < env.length) :
    (graphL env r).Nodup ∧
    (∀ v, v ∈ graphL env r ↔ Reach env r v) ∧
    (∀ l1 w l2, graphL env r = l1 ++ w :: l2 → ∀ c ∈ childrenOf env w, c ∈ l1) :=
  ⟨graphL_nodup hwf hr, graphL_mem_iff hwf hr, graphL_topoOK hwf hr⟩

theorem c2_witness :
    WF wEnv ∧ 2 < wEnv.length ∧
    ((graphL wEnv 2).Nodup ∧
     (∀ v, v ∈ graphL wEnv 2 ↔ Reach wEnv 2 v) ∧
     (∀ l1 w l2, graphL wEnv 2 = l1 ++ w :: l2 → ∀ c ∈ childrenOf wEnv w, c ∈ l1)) :=
  ⟨by decide, by decide, c2_topo_order wEnv 2 (by decide) (by decide)⟩

/-- C3: `backward` on a root sets that root's gradient to 1 by plain
assignment (without resetting any other node's gradient), then invokes
the backward rule of each node of the root's reachable subgraph exactly
once, in reverse topological order with the root first, each rule adding
(`+=`) its local-derivative contribution onto the gradients the operand
nodes already hold. -/
theorem c3_backward_driver (env : Env) (r : Nat) (hwf : WF env) (hr : r < env.length) :
    backward env r =
      List.foldl runRule (updateGrad env r (fun _ => 1)) ((graphL env r).reverse) ∧
    ((graphL env r).reverse).head? = some r ∧
    ((graphL env r).reverse).Nodup ∧
    (∀ v, v ∈ (graphL env r).reverse ↔ Reach env r v) ∧
    (∀ v, gradAt (updateGrad env r (fun _ => 1)) v = if v = r then 1 else gradAt env v) ∧
    (∀ e, WF e → ∀ w x, gradAt (runRule e w) x = gradAt e x + localDeriv e w x * gradAt e w) := by
  refine ⟨backward_eq_foldl env r, graphL_reverse_head hwf hr,
    List.nodup_reverse.2 (graphL_nodup hwf hr), ?_, ?_, ?_⟩
  · intro v
    rw [List.mem_reverse]
    exact graphL_mem_iff hwf hr v
  · intro v
    by_cases hv : v = r
    · subst hv
      rw [if_pos rfl, gradAt_updateGrad_self env v _ hr]
    · rw [if_neg hv, gradAt_updateGrad_ne env r v _ (fun hc => hv hc.symm)]
  · intro e hwfe w x
    exact runRule_grad hwfe w x

theorem c3_witness :
    WF wEnv ∧ 2 < wEnv.length ∧
    (backward wEnv 2 =
      List.foldl runRule (updateGrad wEnv 2 (fun _ => 1)) ((graphL wEnv 2).reverse) ∧
     ((graphL wEnv 2).reverse).head? = some 2 ∧
     ((graphL wEnv 2).reverse).Nodup ∧
     (∀ v, v ∈ (graphL wEnv 2).reverse ↔ Reach wEnv 2 v) ∧
     (∀ v, gradAt (updateGrad wEnv 2 (fun _ => 1)) v = if v = 2 then 1 else gradAt wEnv v) ∧
     (∀ e, WF e → ∀ w x, gradAt (runRule e w) x = gradAt e x + localDeriv e w x * gradAt e w)) :=
  ⟨by decide, by decide, c3_backward_driver wEnv 2 (by decide) (by decide)⟩

/-- C4: for every node `a` with gradient 0 in a well-formed arena,
constructing `b = a + a` (whose dependency set collapses to the single
element `a`) and running `backward` from `b` leaves `a` with gradient 2:
the two unit local derivatives of the addition are both accumulated. -/
theorem c4_shared_operand (env : Env) (a : Nat) (hwf : WF env) (ha : a < env.length)
    (hza : gradAt env a = 0) :
    gradAt (backward (addV env a (.node a)).1 (addV env a (.node a)).2) a = 2 := by
  have haddV : addV env a (.node a) =
      (env ++ [⟨dataAt env a + dataAt env a, 0, [a], .add a a, ""⟩], env.length) := by
    simp [addV, promote, dedup_pair_self]
  rw [haddV]
  have hwf' : WF (env ++ [⟨dataAt env a + dataAt env a, 0, [a], .add a a, ""⟩]) := by
    refine wf_push hwf ?_ ?_ ?_
    · simp
    · intro c hc
      simp at hc
      omega
    · intro i hi
      simpa [ruleOps] using hi
  have hlen' : (env ++ [⟨dataAt env a + dataAt env a, 0, [a], .add a a, ""⟩] : Env).length =
      env.length + 1 := by simp
  have hblt : env.length <
      (env ++ [⟨dataAt env a + dataAt env a, 0, [a], .add a a, ""⟩] : Env).length := by omega
  have hchb : childrenOf (env ++ [⟨dataAt env a + dataAt env a, 0, [a], .add a a, ""⟩])
      env.length = [a] := childrenOf_append_self env _
  have hruleb : ruleAt (env ++ [⟨dataAt env a + dataAt env a, 0, [a], .add a a, ""⟩])
      env.length = .add a a := ruleAt_append_self env _
  have hga : gradAt (env ++ [⟨dataAt env a + dataAt env a, 0, [a], .add a a, ""⟩]) a = 0 := by
    rw [gradAt_append_lt env _ a ha, hza]
  have hfix := backward_fix hwf' hblt a
  rw [if_neg (by omega : a ≠ env.length), hga, zero_add] at hfix
  have hnd' : ((graphL (env ++ [⟨dataAt env a + dataAt env a, 0, [a], .add a a, ""⟩])
      env.length).reverse).Nodup := List.nodup_reverse.2 (graphL_nodup hwf' hblt)
  have hbL : env.length ∈ (graphL (env ++ [⟨dataAt env a + dataAt env a, 0, [a],
      .add a a, ""⟩]) env.length).reverse :=
    List.mem_reverse.2 ((graphL_mem_iff hwf' hblt env.length).2 (Reach.refl env.length))
  have hzero : ∀ w ∈ (graphL (env ++ [⟨dataAt env a + dataAt env a, 0, [a], .add a a, ""⟩])
      env.length).reverse, w ≠ env.length →
      localDeriv (env ++ [⟨dataAt env a + dataAt env a, 0, [a], .add a a, ""⟩]) w a *
        gradAt (backward (env ++ [⟨dataAt env a + dataAt env a, 0, [a], .add a a, ""⟩])
          env.length) w = 0 := by
    intro w hwL hwb
    have hrw : Reach (env ++ [⟨dataAt env a + dataAt env a, 0, [a], .add a a, ""⟩])
        env.length w := (graphL_mem_iff hwf' hblt w).1 (List.mem_reverse.1 hwL)
    have hwlea : w ≤ a := by
      cases hrw with
      | refl => exact absurd rfl hwb
      | step hc hr' =>
          rename_i c
          rw [hchb] at hc
          have hca : c = a := by simpa using hc
          subst hca
          exact reach_le hwf' hr'
    by_cases hd : localDeriv (env ++ [⟨dataAt env a + dataAt env a, 0, [a], .add a a, ""⟩])
        w a = 0
    · rw [hd, zero_mul]
    · have := localDeriv_ne_zero_lt hwf' hd
      omega
  rw [sum_map_single hnd' hbL _ hzero] at hfix
  rw [hfix, backward_root_one hwf' hblt, mul_one]
  unfold localDeriv
  rw [hruleb]
  norm_num

theorem c4_witness :
    WF wc4Env ∧ 0 < wc4Env.length ∧ gradAt wc4Env 0 = 0 ∧
    gradAt (backward (addV wc4Env 0 (.node 0)).1 (addV wc4Env 0 (.node 0)).2) 0 = 2 :=
  ⟨by decide, by decide, rfl, c4_shared_operand wc4Env 0 (by decide) (by decide) rfl⟩

/-- C5 counterexample: `Value(0.0) ** -1`.  The exponent is an int, so
the `isinstance` assert passes, and yet the call fails — Python float
power raises ZeroDivisionError on a zero base with a negative
exponent — with the arena left unchanged.  This refutes both "fails if
and only if its exponent argument is not a real number" and "with an
int or float exponent p it never fails". -/
theorem c5_counterexample :
    (powVChecked zeroEnv 0 (.const (-1))).2 = none ∧
    (¬∃ j, Operand.const (-1 : ℝ) = Operand.node j) ∧
    (powVChecked zeroEnv 0 (.const (-1))).1 = zeroEnv := by
  have hc : dataAt zeroEnv 0 = 0 ∧ (-1 : ℝ) < 0 := ⟨rfl, by norm_num⟩
  rw [powVChecked_const, if_pos hc]
  refine ⟨rfl, ?_, rfl⟩
  rintro ⟨j, h⟩
  exact Operand.noConfusion h

/-- C5 (amended): the power call fails exactly when the exponent is a
node (the `isinstance` assert) or when the base is 0 and the scalar
exponent is negative (Python float power's ZeroDivisionError); every
failure surfaces immediately at the call, with the arena unchanged and
no node constructed.  In all remaining int/float-exponent cases it
succeeds, appending a node with forward value `a.data ^ p` whose
backward rule adds `p * a.data^(p-1) * out.grad` into `a.grad`. -/
theorem c5_pow_guard_amended :
    (∀ env i o, (powVChecked env i o).2 = none ↔
      ((∃ j, o = Operand.node j) ∨
       (∃ p, o = Operand.const p ∧ dataAt env i = 0 ∧ p < 0))) ∧
    (∀ env i o, (powVChecked env i o).2 = none → (powVChecked env i o).1 = env) ∧
    (∀ env i (p : ℝ), ¬(dataAt env i = 0 ∧ p < 0) →
      powVChecked env i (.const p) =
        (env ++ [⟨Real.rpow (dataAt env i) p, 0, [i], .pow i p, ""⟩], some env.length)) ∧
    (∀ e (w i : Nat) (p : ℝ), ruleAt e w = BRule.pow i p →
      runRule e w =
        updateGrad e i (· + p * Real.rpow (dataAt e i) (p - 1) * gradAt e w)) := by
  refine ⟨?_, ?_, ?_, fun e w i p h => runRule_of_pow h⟩
  · intro env i o
    cases o with
    | node j => simp [powVChecked_node]
    | const c =>
        rw [powVChecked_const]
        by_cases hc : dataAt env i = 0 ∧ c < 0
        · rw [if_pos hc]
          constructor
          · intro _
            exact Or.inr ⟨c, rfl, hc⟩
          · intro _
            rfl
        · rw [if_neg hc]
          constructor
          · intro h'
            exact Option.noConfusion h'
          · rintro (⟨j, hj⟩ | ⟨p, hp, hp2⟩)
            · exact Operand.noConfusion hj
            · rcases Operand.const.inj hp with rfl
              exact absurd hp2 hc
  · intro env i o h
    cases o with
    | node j => rfl
    | const c =>
        rw [powVChecked_const] at h ⊢
        by_cases hc : dataAt env i = 0 ∧ c < 0
        · rw [if_pos hc]
        · rw [if_neg hc] at h
          exact Option.noConfusion h
  · intro env i p h
    rw [powVChecked_const, if_neg h]
    simp

theorem c5_witness_amended :
    (¬(dataAt wc4Env 0 = 0 ∧ (3:ℝ) < 0)) ∧
    powVChecked wc4Env 0 (.const 3) =
      (wc4Env ++ [⟨Real.rpow (dataAt wc4Env 0) 3, 0, [0], .pow 0 3, ""⟩],
        some wc4Env.length) ∧
    ruleAt (powVChecked wc4Env 0 (.const 3)).1 1 = BRule.pow 0 3 ∧
    runRule (powVChecked wc4Env 0 (.const 3)).1 1 =
      updateGrad (powVChecked wc4Env 0 (.const 3)).1 0
        (· + 3 * Real.rpow (dataAt (powVChecked wc4Env 0 (.const 3)).1 0) (3 - 1) *
          gradAt (powVChecked wc4Env 0 (.const 3)).1 1) := by
  have hno : ¬(dataAt wc4Env 0 = 0 ∧ (3:ℝ) < 0) := by
    rintro ⟨-, h2⟩
    norm_num at h2
  have h3 := c5_pow_guard_amended.2.2.1 wc4Env 0 3 hno
  have hrt : ruleAt (powVChecked wc4Env 0 (.const 3)).1 1 = BRule.pow 0 3 := by
    rw [h3]
    have hself := ruleAt_append_self wc4Env
      ⟨Real.rpow (dataAt wc4Env 0) 3, 0, [0], .pow 0 3, ""⟩
    rw [show wc4Env.length = 1 from by decide] at hself
    exact hself
  exact ⟨hno, h3, hrt,
    c5_pow_guard_amended.2.2.2 (powVChecked wc4Env 0 (.const 3)).1 1 0 3 hrt⟩

/-- C6: the derived operators are definitionally the compositions the
spec requires: `a - b` is `a + (-b)` (with `-b` built as `b * (-1)`,
and raw-float negation before promotion for scalar operands), and
`a / b` is `a * b ** (-1)` (raw-float reciprocal before promotion for
scalar operands); hence both sides produce identical arenas, so equal
forward values and equal gradients everywhere after any backward pass. -/
theorem c6_sub_div_equiv :
    (∀ env i j, subV env i (.node j) =
      addV (mulV env j (.const (-1))).1 i (.node (mulV env j (.const (-1))).2)) ∧
    (∀ env (i : Nat) (c : ℝ), subV env i (.const c) = addV env i (.const (-c))) ∧
    (∀ env i j, divV env i (.node j) =
      ((mulV (powV env j (.const (-1))).1 i (.node env.length)).1,
       some (mulV (powV env j (.const (-1))).1 i (.node env.length)).2)) ∧
    (∀ env (i : Nat) (c : ℝ), divV env i (.const c) =
      ((mulV env i (.const (Real.rpow c (-1)))).1,
       some (mulV env i (.const (Real.rpow c (-1)))).2)) ∧
    (∀ c : ℝ, c ≠ 0 → Real.rpow c (-1) = c⁻¹) ∧
    (∀ env i j v,
      gradAt (backward (subV env i (.node j)).1 (subV env i (.node j)).2) v =
        gradAt (backward (addV (mulV env j (.const (-1))).1 i
          (.node (mulV env j (.const (-1))).2)).1
          (addV (mulV env j (.const (-1))).1 i (.node (mulV env j (.const (-1))).2)).2) v) := by
  refine ⟨fun env i j => rfl, fun env i c => rfl, fun env i j => rfl, fun env i c => rfl,
    fun c _ => Real.rpow_neg_one c, fun env i j v => rfl⟩

/-- C7: `tanh` appends a node whose forward value is
`(e^(2x) - 1) / (e^(2x) + 1)`, caches that forward output `t` inside
its backward rule at construction time, and the backward execution adds
`(1 - t^2) * out.grad` into the operand using only the cached `t` — the
exponential is never recomputed during the backward pass. -/
theorem c7_tanh (env : Env) (i : Nat) :
    (tanhV env i).2 = env.length ∧
    dataAt (tanhV env i).1 env.length =
      (Real.exp (2 * dataAt env i) - 1) / (Real.exp (2 * dataAt env i) + 1) ∧
    ruleAt (tanhV env i).1 env.length =
      BRule.tanh i ((Real.exp (2 * dataAt env i) - 1) / (Real.exp (2 * dataAt env i) + 1)) ∧
    (∀ e (w j : Nat) (t : ℝ), ruleAt e w = BRule.tanh j t →
      runRule e w = updateGrad e j (· + (1 - t ^ 2) * gradAt e w)) := by
  refine ⟨rfl, ?_, ?_, fun e w j t h => runRule_of_tanh h⟩
  · show dataAt (env ++ [_]) env.length = _
    rw [dataAt_append_self]
  · show ruleAt (env ++ [_]) env.length = _
    rw [ruleAt_append_self]

theorem c7_witness :
    ruleAt (tanhV wc4Env 0).1 1 =
      BRule.tanh 0 ((Real.exp (2 * 2) - 1) / (Real.exp (2 * 2) + 1)) ∧
    runRule (tanhV wc4Env 0).1 1 =
      updateGrad (tanhV wc4Env 0).1 0
        (· + (1 - ((Real.exp (2 * 2) - 1) / (Real.exp (2 * 2) + 1)) ^ 2) *
          gradAt (tanhV wc4Env 0).1 1) := by
  have h2 : dataAt wc4Env 0 = 2 := rfl
  have hr := (c7_tanh wc4Env 0).2.2.1
  rw [h2] at hr
  have hlen : wc4Env.length = 1 := by decide
  rw [hlen] at hr
  exact ⟨hr, (c7_tanh wc4Env 0).2.2.2 (tanhV wc4Env 0).1 1 0 _ hr⟩

/-- C8: the driver's worked example.  With leaves `x1 = 2.0, x2 = 0.0,
w1 = -3.0, w2 = 1.0, b = 6.88137` and `n = x1*w1 + x2*w2 + b`, both the
exp-based decomposition `o = (e - 1)/(e + 1)`, `e = exp(2*n)` that
`main` actually builds and the direct `o = tanh(n)` variant give, after
`backward` from `o`: `n.data = 0.88137`, `o.data ≈ 0.7071`,
`o.grad = 1`, `x1.grad ≈ -1.5`, `w1.grad ≈ 1.0`, `x2.grad ≈ 0.5`,
`b.grad ≈ 0.5` (to 3 significant figures). -/
theorem c8_worked_example :
    (dataAt (backward mainEnv 17) 8 = 0.88137 ∧
     |dataAt (backward mainEnv 17) 17 - 0.7071| < 0.0005 ∧
     gradAt (backward mainEnv 17) 17 = 1 ∧
     |gradAt (backward mainEnv 17) 0 + 1.5| < 0.005 ∧
     |gradAt (backward mainEnv 17) 2 - 1| < 0.005 ∧
     |gradAt (backward mainEnv 17) 1 - 0.5| < 0.005 ∧
     |gradAt (backward mainEnv 17) 4 - 0.5| < 0.005) ∧
    (dataAt (backward tanhEnv 9) 8 = 0.88137 ∧
     |dataAt (backward tanhEnv 9) 9 - 0.7071| < 0.0005 ∧
     gradAt (backward tanhEnv 9) 9 = 1 ∧
     |gradAt (backward tanhEnv 9) 0 + 1.5| < 0.005 ∧
     |gradAt (backward tanhEnv 9) 2 - 1| < 0.005 ∧
     |gradAt (backward tanhEnv 9) 1 - 0.5| < 0.005 ∧
     |gradAt (backward tanhEnv 9) 4 - 0.5| < 0.005) := by
  rcases main_numbers with ⟨m1, m2, m3, m4, m5, m6⟩
  rcases tanh_numbers with ⟨t1, t2, t3, t4, t5, t6⟩
  refine ⟨⟨m1, m2, ?_, m3, m4, m5, m6⟩, ⟨t1, t2, ?_, t3, t4, t5, t6⟩⟩
  · exact backward_root_one (by decide) (by decide)
  · exact backward_root_one (by decide) (by decide)

/-- C9: immediately after `backward` on any root of a well-formed arena,
the root's gradient is exactly 1 regardless of what it held before: the
seed is a plain assignment, and no backward rule executed by the pass
adds into the root (every reachable node's rule writes only into
strictly smaller indices); repeating the pass keeps the root at 1. -/
theorem c9_root_grad_one (env : Env) (r : Nat) (hwf : WF env) (hr : r < env.length) :
    gradAt (backward env r) r = 1 ∧
    gradAt (updateGrad env r (fun _ => 1)) r = 1 ∧
    (∀ w, Reach env r w → localDeriv env w r = 0) ∧
    gradAt (backward (backward env r) r) r = 1 := by
  refine ⟨backward_root_one hwf hr, ?_, fun w hw => localDeriv_root_zero hwf hw, ?_⟩
  · rw [gradAt_updateGrad_self env r _ hr]
  · exact backward_root_one (wf_of_sameShape (sameShape_backward env r) hwf)
      (by rw [← (sameShape_backward env r).1]; exact hr)

theorem c9_witness :
    WF wc9Env ∧ 0 < wc9Env.length ∧ gradAt wc9Env 0 = 5 ∧
    (gradAt (backward wc9Env 0) 0 = 1 ∧
     gradAt (updateGrad wc9Env 0 (fun _ => 1)) 0 = 1 ∧
     (∀ w, Reach wc9Env 0 w → localDeriv wc9Env w 0 = 0) ∧
     gradAt (backward (backward wc9Env 0) 0) 0 = 1) :=
  ⟨by decide, by decide, rfl, c9_root_grad_one wc9Env 0 (by decide) (by decide)⟩

/-- C10: the backward pass never changes any node's forward value,
dependency set, label or rule (the arena keeps its length too), and it
changes gradients only on nodes reachable from the invoked root; the
topological-ordering operation is modelled as a pure function because
the source's `graph` only reads the arena. -/
theorem c10_frame (env : Env) (r : Nat) (hwf : WF env) (hr : r < env.length) :
    (∀ v, dataAt (backward env r) v = dataAt env v) ∧
    (∀ v, childrenOf (backward env r) v = childrenOf env v) ∧
    (∀ v, labelAt (backward env r) v = labelAt env v) ∧
    (∀ v, ruleAt (backward env r) v = ruleAt env v) ∧
    (backward env r).length = env.length ∧
    (∀ v, ¬Reach env r v → gradAt (backward env r) v = gradAt env v) := by
  have hsh := sameShape_backward env r
  exact ⟨fun v => (hsh.2.1 v).symm, fun v => (hsh.2.2.1 v).symm,
    fun v => (hsh.2.2.2.2 v).symm, fun v => (hsh.2.2.2.1 v).symm, hsh.1.symm,
    fun v hv => backward_grad_frame hwf hr hv⟩

theorem c10_witness :
    WF wEnv2 ∧ 2 < wEnv2.length ∧ ¬Reach wEnv2 2 3 ∧
    ((∀ v, dataAt (backward wEnv2 2) v = dataAt wEnv2 v) ∧
     (∀ v, childrenOf (backward wEnv2 2) v = childrenOf wEnv2 v) ∧
     (∀ v, labelAt (backward wEnv2 2) v = labelAt wEnv2 v) ∧
     (∀ v, ruleAt (backward wEnv2 2) v = ruleAt wEnv2 v) ∧
     (backward wEnv2 2).length = wEnv2.length ∧
     (∀ v, ¬Reach wEnv2 2 v → gradAt (backward wEnv2 2) v = gradAt wEnv2 v)) := by
  have hnr : ¬Reach wEnv2 2 3 := fun h =>
    absurd ((graphL_mem_iff (by decide) (by decide) 3).2 h) (by decide)
  exact ⟨by decide, by decide, hnr, c10_frame wEnv2 2 (by decide) (by decide)⟩

end Claims

end Micrograd
